import Mathlib

/-!
Verification development for the cogplan9 cognitive-database core: the
AtomSpace hypergraph store (`src/sys/src/libatomspace`), the ECAN attention
economy (`src/sys/src/libplan9cog/ecan.c`), the PLN inference engine
(`src/sys/src/libpln/pln.c`) and the URE chainer (`src/sys/src/libpln/ure.c`).

Modelling conventions, chosen once for the whole file:
* C `float` truth-value fields are modelled as exact rationals (`ℚ`); the
  algebra of the truth-value formulas is the object of the claims, not the
  rounding of IEEE arithmetic.
* C `short`/`int` attention fields are modelled as unbounded integers (`ℤ`);
  16-bit wraparound is not modelled (no claim concerns overflow behaviour).
* C `ulong` evidence counts are `ℕ`.
* Atom pointers (`Atom *`) are modelled by atom ids (`ℕ`): ids are
  process-unique in the source (`nextatomid` is a monotone static counter),
  so pointer equality coincides with id equality, and a pointer dereference
  is an id lookup in the owning store.  A nil outgoing pointer is modelled by
  the id `0`, which no atom ever carries (ids start at 1) — this matches the
  serializer, which writes `0` for a nil outgoing entry.
* An `AtomSpace` is its `atoms` slot array: `List (Option Atom)` (a deleted
  slot is `none`, exactly as `atomdelete` nils the slot without compacting),
  plus the id counter.  `natoms` is the length of the list.
* The process-wide statistics struct `plnglobalstats` is not modelled: the
  counters never influence control flow and no claim mentions them.
* The process-wide hash index `globalhash` is irrelevant to every operation
  modelled here except `atomfind`; `atomfind` and the hash are modelled
  separately (see the `CogProc` section near the end) with an explicit
  multi-store process state, as required by the claim about it.
-/

set_option allowUnsafeReducibility true
-- The rational-number primitives are marked irreducible upstream (a
-- rewriting-hygiene choice); the concrete scenario evaluations below need
-- them transparent so that `decide` can compute with exact rationals.
attribute [semireducible] Rat.mul Rat.inv Rat.add Rat.sub

namespace Cogplan9

/-- Truth value: `struct TruthValue` of atomspace.h (strength, confidence,
evidence count). -/
structure TruthValue where
  strength : ℚ
  confidence : ℚ
  count : ℕ
  deriving DecidableEq, Repr

/-- Attention value: `struct AttentionValue` of atomspace.h. -/
structure AttentionValue where
  sti : ℤ
  lti : ℤ
  vlti : ℤ
  deriving DecidableEq, Repr

/-- Atom: `struct Atom` of atomspace.h.  `noutgoing` of the C struct is
`outgoing.length`; a link created with `n = 0` and a node both carry a nil
outgoing pointer in C, modelled as the empty list. -/
structure Atom where
  id : ℕ
  type : ℤ
  name : Option String
  outgoing : List ℕ
  tv : TruthValue
  av : AttentionValue
  deriving DecidableEq, Repr

/-- AtomSpace: the `atoms`/`natoms` slot array of `struct AtomSpace`
(`maxatoms` only sizes the allocation and is not modelled), with the id
counter `nextatomid` (a process-wide static in C, carried per store here:
every claim about id allocation below involves a single store, and the
multi-store aspect of lookup is modelled separately). -/
structure AtomSpace where
  atoms : List (Option Atom)
  nextatomid : ℕ
  deriving DecidableEq, Repr

/-- Atom-type constants from the `enum` in atomspace.h. -/
def AtomNode : ℤ := 1
def AtomLink : ℤ := 2
def ConceptNode : ℤ := 3
def PredicateNode : ℤ := 4
def EvaluationLink : ℤ := 5
def InheritanceLink : ℤ := 6
def SimilarityLink : ℤ := 7
def ImplicationLink : ℤ := 8
def ExecutionLink : ℤ := 9
def ListLink : ℤ := 10

/-- `atomspacecreate`: fresh empty store, ids starting at 1 (the initial
value of `nextatomid`). -/
def atomspacecreate : AtomSpace := { atoms := [], nextatomid := 1 }

/-- The live atoms of a store, in slot (iteration) order — every loop in the
source walks `as->atoms[0..natoms)` skipping nil slots. -/
def liveAtoms (as : AtomSpace) : List Atom :=
  as.atoms.filterMap id

/-- Pointer dereference by id: the live atom carrying the id, if any. -/
def atomderef (as : AtomSpace) (aid : ℕ) : Option Atom :=
  (liveAtoms as).find? (fun a => a.id == aid)

/-- `atomcreate`: allocate a fresh id (`atomalloc`), append the slot, default
truth `(0.5, 0.0, 0)` and attention `(0,0,0)`. -/
def atomcreate (as : AtomSpace) (ty : ℤ) (name : Option String) :
    AtomSpace × Atom :=
  let a : Atom :=
    { id := as.nextatomid, type := ty, name := name, outgoing := [],
      tv := ⟨1/2, 0, 0⟩, av := ⟨0, 0, 0⟩ }
  ({ atoms := as.atoms ++ [some a], nextatomid := as.nextatomid + 1 }, a)

/-- `linkcreate`: as `atomcreate` but with an outgoing id list and nil name. -/
def linkcreate (as : AtomSpace) (ty : ℤ) (outg : List ℕ) :
    AtomSpace × Atom :=
  let a : Atom :=
    { id := as.nextatomid, type := ty, name := none, outgoing := outg,
      tv := ⟨1/2, 0, 0⟩, av := ⟨0, 0, 0⟩ }
  ({ atoms := as.atoms ++ [some a], nextatomid := as.nextatomid + 1 }, a)

/-- In-place field update through an atom pointer, store-level view: the C
code writes through `Atom *`; with unique ids this is an update of the one
slot holding that id. -/
def storeModify (as : AtomSpace) (aid : ℕ) (f : Atom → Atom) : AtomSpace :=
  { as with
    atoms := as.atoms.map (Option.map (fun a => if a.id = aid then f a else a)) }

/-- `atomsettruth` through a pointer, as a store update. -/
def atomsettruth (as : AtomSpace) (aid : ℕ) (tv : TruthValue) : AtomSpace :=
  storeModify as aid (fun a => { a with tv := tv })

/-- `atomsetattention` through a pointer, as a store update. -/
def atomsetattention (as : AtomSpace) (aid : ℕ) (av : AttentionValue) :
    AtomSpace :=
  storeModify as aid (fun a => { a with av := av })

/-- `atomgetincoming`: every link whose outgoing set contains the target, in
store iteration order; the inner `break` makes each link appear once even if
the target occurs at several outgoing positions, which is what `filter`
gives. -/
def atomgetincoming (as : AtomSpace) (targetId : ℕ) : List Atom :=
  (liveAtoms as).filter (fun l => l.outgoing.contains targetId)

/-! ### PLN truth-value formulas (pln.c lines 63-165)

Pure functions on truth values, transcribed term by term.  Division on `ℚ`
is total (`x / 0 = 0`), so the induction formula is accompanied by an
explicit definition of its denominator: the C code divides a `float` by that
expression, and the claims about division by zero are stated through it. -/

/-- `plndeduction` (pln.c line 64). -/
def plndeduction (ab bc : TruthValue) : TruthValue :=
  { strength := ab.strength * bc.strength,
    confidence := ab.confidence * bc.confidence,
    count := ab.count + bc.count }

/-- The denominator of the induction formula:
`(ab.strength * ba.strength) + k * (1 - ab.strength) * (1 - ba.strength)`
with the indifference prior `k = 1.0` (pln.c lines 81-84). -/
def plninductionden (ab ba : TruthValue) : ℚ :=
  ab.strength * ba.strength + 1 * (1 - ab.strength) * (1 - ba.strength)

/-- `plninduction` (pln.c line 77). -/
def plninduction (ab ba : TruthValue) : TruthValue :=
  { strength := (ab.strength * ba.strength) / plninductionden ab ba,
    confidence := ab.confidence * ba.confidence * (9/10),
    count := ab.count }

/-- `plnabduction` (pln.c line 92). -/
def plnabduction (ab bc : TruthValue) : TruthValue :=
  { strength := ab.strength * bc.strength * (8/10),
    confidence := ab.confidence * bc.confidence * (7/10),
    count := ab.count + bc.count }

/-- `plnrevision` (pln.c line 106): confidence-weighted average of
strengths; fully uncertain `(0.5, 0)` when both confidences vanish. -/
def plnrevision (a b : TruthValue) : TruthValue :=
  let wa := a.confidence
  let wb := b.confidence
  let wtotal := wa + wb
  if wtotal > 0 then
    { strength := (a.strength * wa + b.strength * wb) / wtotal,
      confidence := wtotal / (wtotal + 1),
      count := a.count + b.count }
  else
    { strength := 1/2, confidence := 0, count := a.count + b.count }

/-- `plnand` (pln.c line 129). -/
def plnand (a b : TruthValue) : TruthValue :=
  { strength := a.strength * b.strength,
    confidence := a.confidence * b.confidence,
    count := a.count + b.count }

/-- `plnor` (pln.c line 142). -/
def plnor (a b : TruthValue) : TruthValue :=
  { strength := a.strength + b.strength - a.strength * b.strength,
    confidence := (a.confidence + b.confidence) / 2,
    count := a.count + b.count }

/-- `plnnot` (pln.c line 155). -/
def plnnot (a : TruthValue) : TruthValue :=
  { strength := 1 - a.strength,
    confidence := a.confidence,
    count := a.count }

/-- A truth value whose strength and confidence lie in the unit interval. -/
def tvInRange (t : TruthValue) : Prop :=
  0 ≤ t.strength ∧ t.strength ≤ 1 ∧ 0 ≤ t.confidence ∧ t.confidence ≤ 1

instance (t : TruthValue) : Decidable (tvInRange t) := by
  unfold tvInRange; infer_instance

/-- C6 — counterexample.  Both input truth values have strength and
confidence in `[0,1]`, yet the induction denominator
`sa*sb + (1-sa)*(1-sb)` vanishes at strengths `(0, 1)`, so `plninduction`
in pln.c divides by zero there (producing a NaN in C); the claim asserted
the denominator is never zero under that precondition. -/
theorem claim_C6_counterexample :
    tvInRange ⟨0, 1/2, 0⟩ ∧ tvInRange ⟨1, 1/2, 0⟩ ∧
      plninductionden ⟨0, 1/2, 0⟩ ⟨1, 1/2, 0⟩ = 0 := by
  refine ⟨?_, ?_, ?_⟩ <;> norm_num [tvInRange, plninductionden]

/-- C6 — amended.  For inputs with strength and confidence in `[0,1]`,
every truth-value formula (deduction, induction, abduction, revision, and,
or, not) returns strength and confidence in `[0,1]`, **provided** the
induction denominator is nonzero; the denominator does vanish inside the
claimed precondition (exactly when the strengths are `(0,1)` or `(1,0)`,
see the counterexample), so the no-division-by-zero part of the claim had
to be weakened to this hypothesis. -/
theorem claim_C6 (a b : TruthValue)
    (ha : tvInRange a) (hb : tvInRange b)
    (hden : plninductionden a b ≠ 0) :
    tvInRange (plndeduction a b) ∧ tvInRange (plninduction a b) ∧
      tvInRange (plnabduction a b) ∧ tvInRange (plnrevision a b) ∧
      tvInRange (plnand a b) ∧ tvInRange (plnor a b) ∧
      tvInRange (plnnot a) := by
  obtain ⟨hs0, hs1, hc0, hc1⟩ := ha
  obtain ⟨ht0, ht1, hd0, hd1⟩ := hb
  have hdnn : 0 ≤ plninductionden a b := by
    unfold plninductionden; nlinarith
  have hdpos : 0 < plninductionden a b := lt_of_le_of_ne hdnn (Ne.symm hden)
  refine ⟨?_, ?_, ?_, ?_, ?_, ?_, ?_⟩
  · -- deduction
    simp only [tvInRange, plndeduction]
    refine ⟨mul_nonneg hs0 ht0, by nlinarith, mul_nonneg hc0 hd0, by nlinarith⟩
  · -- induction
    simp only [tvInRange, plninduction]
    refine ⟨div_nonneg (mul_nonneg hs0 ht0) hdnn, ?_, by nlinarith, by nlinarith⟩
    rw [div_le_one hdpos]
    unfold plninductionden
    nlinarith
  · -- abduction
    simp only [tvInRange, plnabduction]
    refine ⟨by nlinarith, by nlinarith, by nlinarith, by nlinarith⟩
  · -- revision
    simp only [tvInRange, plnrevision]
    split_ifs with h
    · refine ⟨?_, ?_, ?_, ?_⟩
      · exact div_nonneg (by nlinarith) (le_of_lt h)
      · rw [div_le_one h]; nlinarith
      · exact div_nonneg (by linarith) (by linarith)
      · rw [div_le_one (by linarith)]; linarith
    · norm_num
  · -- and
    simp only [tvInRange, plnand]
    refine ⟨mul_nonneg hs0 ht0, by nlinarith, mul_nonneg hc0 hd0, by nlinarith⟩
  · -- or
    simp only [tvInRange, plnor]
    refine ⟨by nlinarith, by nlinarith, by linarith, by linarith⟩
  · -- not
    simp only [tvInRange, plnnot]
    refine ⟨by linarith, by linarith, hc0, hc1⟩

/-- Witness for the amended C6 at the spec's own revision example
`(0.8, 0.6)` and `(0.6, 0.4)`. -/
theorem claim_C6_witness :
    tvInRange ⟨8/10, 6/10, 0⟩ ∧ tvInRange ⟨6/10, 4/10, 0⟩ ∧
      plninductionden ⟨8/10, 6/10, 0⟩ ⟨6/10, 4/10, 0⟩ ≠ 0 ∧
      tvInRange (plnrevision ⟨8/10, 6/10, 0⟩ ⟨6/10, 4/10, 0⟩) := by
  refine ⟨by norm_num [tvInRange], by norm_num [tvInRange],
    by norm_num [plninductionden], ?_⟩
  exact (claim_C6 ⟨8/10, 6/10, 0⟩ ⟨6/10, 4/10, 0⟩ (by norm_num [tvInRange])
    (by norm_num [tvInRange]) (by norm_num [plninductionden])).2.2.2.1

/-! ### PLN forward chaining (pln.c lines 186-336)

The statistics counters (`plnglobalstats`) are omitted: they never influence
control flow.  The `links` buffer reallocation is lossless and not modelled.
The snapshot taken by `plnfindlinks` copies atom pointers; no operation
performed during a `plnforward` call mutates an atom that existed when the
snapshot was taken (only freshly created links are written to), so holding
atom values in the snapshot is faithful. -/

/-- `plnfindlinks`: all atoms of the given link type with a non-nil outgoing
set, in store order. -/
def plnfindlinks (as : AtomSpace) (linktype : ℤ) : List Atom :=
  (liveAtoms as).filter (fun a => a.type == linktype && !a.outgoing.isEmpty)

/-- `plnrelatesto`: pointer equality with the target, or membership of the
target in the outgoing set. -/
def plnrelatesto (a target : Atom) : Bool :=
  a.id == target.id || a.outgoing.contains target.id

/-- `plnapplydeduction` (pln.c lines 245-277): when both links have arity at
least 2 and the middle terms match, create the `A→C` link with the deduction
truth value.  The returned atom carries the truth value already set (the C
code writes it through the pointer it returns). -/
def plnapplydeduction (as : AtomSpace) (ab bc : Atom) :
    AtomSpace × Option Atom :=
  if ab.outgoing.length < 2 ∨ bc.outgoing.length < 2 then (as, none)
  else if ab.outgoing.getD 1 0 ≠ bc.outgoing.getD 0 0 then (as, none)
  else
    let s := linkcreate as ab.type [ab.outgoing.getD 0 0, bc.outgoing.getD 1 0]
    let tv := plndeduction ab.tv bc.tv
    (atomsettruth s.1 s.2.id tv, some { s.2 with tv := tv })

/-- The ordered pairs `(links[i], links[j])` with `i ≠ j`, in the
nested-loop order of `plnforward`. -/
def plnpairs (links : List Atom) : List (Atom × Atom) :=
  links.enum.flatMap fun p =>
    links.enum.filterMap fun q =>
      if p.1 = q.1 then none else some (p.2, q.2)

/-- One round of the forward chainer: try every ordered pair, skipping pairs
whose first link is unrelated to the target, and stop contributing once
`maxresults` results have accumulated (the `count < maxresults` conditions
of the `i`/`j` loops). -/
def plnstep (target : Option Atom) (links : List Atom) (maxresults : ℕ)
    (st : AtomSpace × List Atom) : AtomSpace × List Atom :=
  (plnpairs links).foldl
    (fun st p =>
      if st.2.length ≥ maxresults then st
      else if (match target with
               | some t => !plnrelatesto p.1 t
               | none => false) then st
      else
        match plnapplydeduction st.1 p.1 p.2 with
        | (as1, some newatom) => (as1, st.2 ++ [newatom])
        | (as1, none) => (as1, st.2))
    st

/-- The round loop of `plnforward`: up to `maxsteps` rounds over a fixed
link snapshot; the loop exits when the *cumulative* result count is zero
after a round (`if(count == 0) break`) or `maxresults` is reached. -/
def plnrounds : ℕ → Option Atom → List Atom → ℕ → (AtomSpace × List Atom) →
    AtomSpace × List Atom
  | 0, _, _, _, st => st
  | n+1, target, links, maxresults, st =>
    if st.2.length ≥ maxresults then st
    else
      let st1 := plnstep target links maxresults st
      if st1.2.length = 0 then st1
      else plnrounds n target links maxresults st1

/-- `plnforward` (pln.c lines 280-336): snapshot the inheritance links with
non-empty outgoing sets, then run the deduction rounds with
`maxresults = maxsteps * 2`. -/
def plnforward (as : AtomSpace) (target : Option Atom) (maxsteps : ℕ) :
    AtomSpace × List Atom :=
  plnrounds maxsteps target (plnfindlinks as InheritanceLink) (maxsteps * 2)
    (as, [])

/-! ### The C1 scenario -/

/-- Node `A` of the C1 scenario (id 1, the first atom created). -/
def c1A : Atom := (atomcreate atomspacecreate ConceptNode (some "A")).2

/-- The C1 scenario store: nodes `A`,`B`,`C` (ids 1,2,3) and inheritance
links `A→B` (id 4) with truth `(0.9, 0.8)` and `B→C` (id 5) with truth
`(0.85, 0.75)`, built through the store API. -/
def c1store : AtomSpace :=
  let s1 := atomcreate atomspacecreate ConceptNode (some "A")
  let s2 := atomcreate s1.1 ConceptNode (some "B")
  let s3 := atomcreate s2.1 ConceptNode (some "C")
  let s4 := linkcreate s3.1 InheritanceLink [1, 2]
  let s5 := atomsettruth s4.1 s4.2.id ⟨9/10, 8/10, 0⟩
  let s6 := linkcreate s5 InheritanceLink [2, 3]
  atomsettruth s6.1 s6.2.id ⟨85/100, 75/100, 0⟩

/-- First `plnforward(A, 5)` call of the scenario. -/
def c1run1 : AtomSpace × List Atom := plnforward c1store (some c1A) 5

/-- Second `plnforward(A, 5)` call, on the store the first call produced. -/
def c1run2 : AtomSpace × List Atom := plnforward c1run1.1 (some c1A) 5

set_option maxRecDepth 100000 in
/-- C1 — counterexample.  On the scenario store, `plnforward(A, 5)` creates
five `A→C` links, not exactly one: nothing checks for an existing
equivalent link, and the early-exit condition tests the cumulative count
(which is nonzero after the first round), so every one of the five rounds
re-derives `A→C` from the same snapshot. -/
theorem claim_C1_counterexample :
    (plnforward c1store (some c1A) 5).2.length = 5 ∧
      (plnforward c1store (some c1A) 5).2.length ≠ 1 := by
  decide

set_option maxRecDepth 100000 in
/-- C1 — amended.  `plnforward(A, 5)` on the scenario store derives the
link `A→C` with truth `(0.9*0.85, 0.8*0.75) = (0.765, 0.6)` — but five
times, once per round (the store grows from 5 to 10 atoms); and running
`plnforward(A, 5)` again on the resulting store derives five further
duplicates (15 atoms), because derived links are never checked against
existing ones. -/
theorem claim_C1 :
    c1run1.2.length = 5 ∧
      (∀ r ∈ c1run1.2,
        r.type = InheritanceLink ∧ r.outgoing = [1, 3] ∧
          r.tv = ⟨153/200, 3/5, 0⟩) ∧
      (liveAtoms c1store).length = 5 ∧
      (liveAtoms c1run1.1).length = 10 ∧
      c1run2.2.length = 5 ∧
      (∀ r ∈ c1run2.2,
        r.type = InheritanceLink ∧ r.outgoing = [1, 3] ∧
          r.tv = ⟨153/200, 3/5, 0⟩) ∧
      (liveAtoms c1run2.1).length = 15 := by
  decide

/-! ### ECAN — economic attention network (ecan.c)

`ecanupdate` collects the live atoms in slot order and bubble-sorts them by
descending STI.  The C loop runs `nsorted - 1` truncated passes over a
mutable array; one full functional pass (`bpass`) equals one C pass (the
truncated tail of each C pass walks an already-sorted suffix dominated by
the preceding elements, where no swap can fire), and running `length` full
passes equals running `length - 1` of them because a pass over a sorted
array is the identity (`bpass_of_sorted` below). -/

/-- Live atoms paired with their slot index, in slot order — the traversal
order of every `for(i = 0; i < natoms; i++)` loop. -/
def livePairsFrom : ℕ → List (Option Atom) → List (ℕ × Atom)
  | _, [] => []
  | i, none :: rest => livePairsFrom (i + 1) rest
  | i, some a :: rest => (i, a) :: livePairsFrom (i + 1) rest

/-- The live atoms of a store with their slot indices. -/
def livePairs (as : AtomSpace) : List (ℕ × Atom) :=
  livePairsFrom 0 as.atoms

/-- One bubble-sort pass of `ecanupdate`: swap adjacent elements whenever
the earlier one has strictly smaller STI (`sorted[j]->av.sti <
sorted[j+1]->av.sti`). -/
def bpass : List (ℕ × Atom) → List (ℕ × Atom)
  | [] => []
  | [p] => [p]
  | p :: q :: t =>
    if p.2.av.sti < q.2.av.sti then q :: bpass (p :: t) else p :: bpass (q :: t)
termination_by l => l.length
decreasing_by all_goals simp

/-- Iterated bubble-sort passes. -/
def bubbleN : ℕ → List (ℕ × Atom) → List (ℕ × Atom)
  | 0, l => l
  | n + 1, l => bubbleN n (bpass l)

/-- The bubble sort of `ecanupdate`. -/
def bubblesort (l : List (ℕ × Atom)) : List (ℕ × Atom) :=
  bubbleN l.length l

/-- `struct EcanNetwork` (plan9cog.h): budget fields, focus size (default
20) and the cached focus list.  `nfocus` of the C struct is
`focusatoms.length`. -/
structure EcanNetwork where
  totalsti : ℤ
  totallti : ℤ
  attentionalfocus : ℕ
  focusatoms : List Atom
  deriving DecidableEq, Repr

/-- `ecaninit`: default focus size 20, empty cache. -/
def ecaninit (totalsti totallti : ℤ) : EcanNetwork :=
  { totalsti := totalsti, totallti := totallti, attentionalfocus := 20,
    focusatoms := [] }

/-- `ecanupdate` (ecan.c lines 41-88): bubble-sort the live atoms by
descending STI and cache the first `min(nsorted, attentionalfocus)` of
them. -/
def ecanupdate (as : AtomSpace) (e : EcanNetwork) : EcanNetwork :=
  let sorted := bubblesort (livePairs as)
  let nfocus := min sorted.length e.attentionalfocus
  { e with focusatoms := (sorted.take nfocus).map Prod.snd }

/-- The value stored back into a C `short`: 16-bit two's-complement wrap
into `[-32768, 32767]`. -/
def wrap16 (z : ℤ) : ℤ :=
  (z + 32768) % 65536 - 32768

/-- `ecanallocate` (ecan.c lines 90-103): add `sti` to the atom's STI —
`av.sti += sti` on the `short` field, so the sum is narrowed through
`wrap16` on store-back — then recompute the focus.  The C argument is an
atom pointer; it is passed here as the atom's id (the nil-pointer no-op
case is not representable). -/
def ecanallocate (as : AtomSpace) (e : EcanNetwork) (aid : ℕ) (sti : ℤ) :
    AtomSpace × EcanNetwork :=
  let as1 := storeModify as aid
    (fun a => { a with av := { a.av with sti := wrap16 (a.av.sti + sti) } })
  (as1, ecanupdate as1 e)

/-- `ecanspread` (ecan.c lines 105-131): no-op when the source STI is not
positive or the incoming set is empty; otherwise add
`source.sti / (nincoming + 1)` (C integer division; both operands positive
here) to every incoming link via `ecanallocate`. -/
def ecanspread (as : AtomSpace) (e : EcanNetwork) (sourceId : ℕ) :
    AtomSpace × EcanNetwork :=
  match atomderef as sourceId with
  | none => (as, e)
  | some source =>
    if source.av.sti ≤ 0 then (as, e)
    else
      let incoming := atomgetincoming as sourceId
      if incoming.isEmpty then (as, e)
      else
        let spread := source.av.sti / ((incoming.length : ℤ) + 1)
        incoming.foldl (fun st l => ecanallocate st.1 st.2 l.id spread) (as, e)

/-- Truncation toward zero of a rational, the C `(short)` cast applied to a
float product. -/
def ratTrunc (q : ℚ) : ℤ :=
  if 0 ≤ q then ⌊q⌋ else ⌈q⌉

/-- `ecandecay` (ecan.c lines 145-170): multiply every live atom's STI by
`(1.0 - rate)` with truncation toward zero, then recompute the focus. -/
def ecandecay (as : AtomSpace) (e : EcanNetwork) (rate : ℚ) :
    AtomSpace × EcanNetwork :=
  let as1 : AtomSpace :=
    { as with
      atoms := as.atoms.map (Option.map (fun a =>
        { a with av := { a.av with
          sti := ratTrunc ((a.av.sti : ℚ) * (1 - rate)) } })) }
  (as1, ecanupdate as1 e)

/-! ### Bubble-sort correctness for `ecanupdate` -/

/-- A bubble pass permutes its input. -/
theorem bpass_perm (l : List (ℕ × Atom)) : (bpass l).Perm l := by
  induction l using bpass.induct with
  | case1 => simp [bpass]
  | case2 p => simp [bpass]
  | case3 p q t h ih =>
    rw [bpass, if_pos h]
    exact (ih.cons q).trans (List.Perm.swap p q t)
  | case4 p q t h ih =>
    rw [bpass, if_neg h]
    exact ih.cons p

/-- A bubble pass on a descending-sorted list is the identity (this is why
running `length` full passes computes the same list as the C loop's
`length - 1` passes). -/
theorem bpass_of_sorted (l : List (ℕ × Atom))
    (h : l.Pairwise (fun p q => q.2.av.sti ≤ p.2.av.sti)) : bpass l = l := by
  induction l using bpass.induct with
  | case1 => simp [bpass]
  | case2 p => simp [bpass]
  | case3 p q t hlt ih =>
    obtain ⟨hp, -⟩ := List.pairwise_cons.1 h
    have := hp q (by simp)
    omega
  | case4 p q t hlt ih =>
    obtain ⟨hp, ht⟩ := List.pairwise_cons.1 h
    rw [bpass, if_neg hlt, ih ht]

/-- A bubble pass moves a minimum-STI element to the end. -/
theorem bpass_minlast (l : List (ℕ × Atom)) (hne : l ≠ []) :
    ∃ l2 m, bpass l = l2 ++ [m] ∧ ∀ x ∈ l, m.2.av.sti ≤ x.2.av.sti := by
  induction l using bpass.induct with
  | case1 => exact absurd rfl hne
  | case2 p => exact ⟨[], p, by simp [bpass], by simp⟩
  | case3 p q t h ih =>
    obtain ⟨l2, m, he, hmin⟩ := ih (by simp)
    refine ⟨q :: l2, m, ?_, ?_⟩
    · rw [bpass, if_pos h, he]; rfl
    · intro x hx
      rcases List.mem_cons.1 hx with rfl | hx'
      · exact hmin x (by simp)
      · rcases List.mem_cons.1 hx' with rfl | hx''
        · have hp := hmin p (by simp)
          omega
        · exact hmin x (by simp [hx''])
  | case4 p q t h ih =>
    obtain ⟨l2, m, he, hmin⟩ := ih (by simp)
    refine ⟨p :: l2, m, ?_, ?_⟩
    · rw [bpass, if_neg h, he]; rfl
    · intro x hx
      rcases List.mem_cons.1 hx with rfl | hx'
      · have hq := hmin q (by simp)
        omega
      · rcases List.mem_cons.1 hx' with rfl | hx''
        · exact hmin x (by simp)
        · exact hmin x (by simp [hx''])

/-- A bubble pass leaves a trailing element in place when it has minimal
STI among the elements before it (no swap can reach across it). -/
theorem bpass_append_last (l2 : List (ℕ × Atom)) (m : ℕ × Atom) :
    (∀ x ∈ l2, m.2.av.sti ≤ x.2.av.sti) →
      bpass (l2 ++ [m]) = bpass l2 ++ [m] := by
  induction l2 using bpass.induct with
  | case1 => intro _; simp [bpass]
  | case2 p =>
    intro hmin
    have hp := hmin p (by simp)
    show bpass (p :: m :: []) = bpass [p] ++ [m]
    simp only [bpass]
    rw [if_neg (by omega : ¬ p.2.av.sti < m.2.av.sti)]
    rfl
  | case3 p q t h ih =>
    intro hmin
    show bpass (p :: q :: (t ++ [m])) = bpass (p :: q :: t) ++ [m]
    rw [bpass.eq_3, if_pos h, bpass.eq_3, if_pos h]
    have hrec := ih (fun x hx => hmin x (by
      rcases List.mem_cons.1 hx with rfl | h2
      · simp
      · simp [h2]))
    show q :: bpass ((p :: t) ++ [m]) = (q :: bpass (p :: t)) ++ [m]
    rw [hrec]; rfl
  | case4 p q t h ih =>
    intro hmin
    show bpass (p :: q :: (t ++ [m])) = bpass (p :: q :: t) ++ [m]
    rw [bpass.eq_3, if_neg h, bpass.eq_3, if_neg h]
    have hrec := ih (fun x hx => hmin x (by
      rcases List.mem_cons.1 hx with rfl | h2
      · simp
      · simp [h2]))
    show p :: bpass ((q :: t) ++ [m]) = (p :: bpass (q :: t)) ++ [m]
    rw [hrec]; rfl

/-- Iterated passes permute the input. -/
theorem bubbleN_perm (n : ℕ) (l : List (ℕ × Atom)) : (bubbleN n l).Perm l := by
  induction n generalizing l with
  | zero => simp [bubbleN]
  | succ n ih => exact (ih (bpass l)).trans (bpass_perm l)

/-- Iterated passes leave a trailing minimal element in place. -/
theorem bubbleN_append_last (n : ℕ) (l2 : List (ℕ × Atom)) (m : ℕ × Atom)
    (hmin : ∀ x ∈ l2, m.2.av.sti ≤ x.2.av.sti) :
    bubbleN n (l2 ++ [m]) = bubbleN n l2 ++ [m] := by
  induction n generalizing l2 with
  | zero => rfl
  | succ n ih =>
    show bubbleN n (bpass (l2 ++ [m])) = bubbleN n (bpass l2) ++ [m]
    rw [bpass_append_last l2 m hmin]
    exact ih (bpass l2) (fun x hx => hmin x ((bpass_perm l2).mem_iff.1 hx))

/-- `length` many passes sort by non-increasing STI. -/
theorem bubbleN_sorted :
    ∀ (n : ℕ) (l : List (ℕ × Atom)), l.length = n →
      (bubbleN n l).Pairwise (fun p q => q.2.av.sti ≤ p.2.av.sti) := by
  intro n
  induction n using Nat.strong_induction_on with
  | _ n ih =>
    intro l hl
    cases n with
    | zero =>
      rw [List.length_eq_zero] at hl
      subst hl
      simp [bubbleN]
    | succ k =>
      have hne : l ≠ [] := by
        intro h; subst h; simp at hl
      obtain ⟨l2, m, he, hmin⟩ := bpass_minlast l hne
      have hlen2 : l2.length = k := by
        have hp := (bpass_perm l).length_eq
        rw [he] at hp
        simp at hp
        omega
      have hmem : ∀ x ∈ l2, x ∈ l := by
        intro x hx
        exact (bpass_perm l).mem_iff.1 (by
          rw [he]; exact List.mem_append_left _ hx)
      have hmin2 : ∀ x ∈ l2, m.2.av.sti ≤ x.2.av.sti :=
        fun x hx => hmin x (hmem x hx)
      show (bubbleN k (bpass l)).Pairwise _
      rw [he, bubbleN_append_last k l2 m hmin2]
      refine (List.pairwise_append).2 ⟨ih k (by omega) l2 hlen2, by simp, ?_⟩
      intro a ha b hb
      rw [List.mem_singleton] at hb
      subst hb
      exact hmin2 a ((bubbleN_perm k l2).mem_iff.1 ha)

/-- A bubble pass never reorders equal-STI elements: it preserves the
"equal STI implies increasing slot index" pairwise invariant. -/
theorem bpass_stable (l : List (ℕ × Atom)) :
    l.Pairwise (fun p q => p.2.av.sti = q.2.av.sti → p.1 < q.1) →
      (bpass l).Pairwise (fun p q => p.2.av.sti = q.2.av.sti → p.1 < q.1) := by
  induction l using bpass.induct with
  | case1 => intro h; simp [bpass]
  | case2 p => intro h; simp [bpass]
  | case3 p q t hlt ih =>
    intro h
    obtain ⟨hp, hqt⟩ := List.pairwise_cons.1 h
    obtain ⟨hq, ht⟩ := List.pairwise_cons.1 hqt
    rw [bpass, if_pos hlt]
    refine List.pairwise_cons.2 ⟨?_, ?_⟩
    · intro x hx
      rcases List.mem_cons.1 ((bpass_perm (p :: t)).mem_iff.1 hx) with rfl | hx'
      · intro heq; omega
      · exact hq x hx'
    · exact ih (List.pairwise_cons.2
        ⟨fun x hx => hp x (List.mem_cons_of_mem q hx), ht⟩)
  | case4 p q t hlt ih =>
    intro h
    obtain ⟨hp, hqt⟩ := List.pairwise_cons.1 h
    rw [bpass, if_neg hlt]
    refine List.pairwise_cons.2 ⟨?_, ?_⟩
    · intro x hx
      exact hp x ((bpass_perm (q :: t)).mem_iff.1 hx)
    · exact ih hqt

/-- Iterated passes preserve the stability invariant. -/
theorem bubbleN_stable (n : ℕ) (l : List (ℕ × Atom))
    (h : l.Pairwise (fun p q => p.2.av.sti = q.2.av.sti → p.1 < q.1)) :
    (bubbleN n l).Pairwise (fun p q => p.2.av.sti = q.2.av.sti → p.1 < q.1) := by
  induction n generalizing l with
  | zero => exact h
  | succ n ih => exact ih (bpass l) (bpass_stable l h)

/-- Slot indices produced by `livePairsFrom` are at least the start index. -/
theorem livePairsFrom_fst_ge (l : List (Option Atom)) :
    ∀ (i : ℕ), ∀ p ∈ livePairsFrom i l, i ≤ p.1 := by
  induction l with
  | nil => intro i p hp; simp [livePairsFrom] at hp
  | cons o rest ih =>
    intro i p hp
    cases o with
    | none =>
      have := ih (i + 1) p hp
      omega
    | some a =>
      rcases List.mem_cons.1 hp with rfl | hp'
      · exact le_refl _
      · have := ih (i + 1) p hp'
        omega

/-- Slot indices are strictly increasing along `livePairsFrom`. -/
theorem livePairsFrom_pairwise (l : List (Option Atom)) :
    ∀ (i : ℕ), (livePairsFrom i l).Pairwise (fun p q => p.1 < q.1) := by
  induction l with
  | nil => intro i; simp [livePairsFrom]
  | cons o rest ih =>
    intro i
    cases o with
    | none => exact ih (i + 1)
    | some a =>
      refine List.pairwise_cons.2 ⟨?_, ih (i + 1)⟩
      intro q hq
      have := livePairsFrom_fst_ge rest (i + 1) q hq
      omega

/-- Dropping the indices from `livePairs` recovers the live atoms. -/
theorem livePairsFrom_map_snd (l : List (Option Atom)) :
    ∀ (i : ℕ), (livePairsFrom i l).map Prod.snd = l.filterMap id := by
  induction l with
  | nil => intro i; simp [livePairsFrom]
  | cons o rest ih =>
    intro i
    cases o with
    | none => simpa [livePairsFrom] using ih (i + 1)
    | some a => simpa [livePairsFrom] using ih (i + 1)

/-- The focus list length after `ecanupdate` (shared by several claims). -/
theorem ecanupdate_length (as : AtomSpace) (e : EcanNetwork) :
    (ecanupdate as e).focusatoms.length
      = min e.attentionalfocus (liveAtoms as).length := by
  have hsl : (bubblesort (livePairs as)).length = (livePairs as).length :=
    (bubbleN_perm _ _).length_eq
  have hla : (liveAtoms as).length = (livePairs as).length := by
    rw [liveAtoms, ← livePairsFrom_map_snd as.atoms 0, List.length_map]
    rfl
  show (((bubblesort (livePairs as)).take
      (min (bubblesort (livePairs as)).length e.attentionalfocus)).map
        Prod.snd).length = _
  rw [List.length_map, List.length_take, hsl, hla]
  omega

/-- The focus list after `ecanupdate` is sorted by non-increasing STI
(shared by several claims). -/
theorem ecanupdate_sorted (as : AtomSpace) (e : EcanNetwork) :
    (ecanupdate as e).focusatoms.Pairwise (fun a b => b.av.sti ≤ a.av.sti) := by
  show (((bubblesort (livePairs as)).take _).map Prod.snd).Pairwise _
  rw [List.pairwise_map]
  exact List.Pairwise.sublist (List.take_sublist _ _)
    (bubbleN_sorted (livePairs as).length (livePairs as) rfl)

/-- C7.  After `ecanupdate`, the cached focus list has length
`min(focus_size, live atom count)` and is the prefix of the bubble sort of
the live atoms, which is a permutation of them ordered by non-increasing
STI with ties in store iteration order (equal-STI pairs keep strictly
increasing slot indices — a stable sort). -/
theorem claim_C7 (as : AtomSpace) (e : EcanNetwork) :
    (ecanupdate as e).focusatoms.length
        = min e.attentionalfocus (liveAtoms as).length
    ∧ (ecanupdate as e).focusatoms.Pairwise (fun a b => b.av.sti ≤ a.av.sti)
    ∧ (ecanupdate as e).focusatoms
        = ((bubblesort (livePairs as)).take
            (min (bubblesort (livePairs as)).length e.attentionalfocus)).map
              Prod.snd
    ∧ (bubblesort (livePairs as)).Perm (livePairs as)
    ∧ (bubblesort (livePairs as)).Pairwise
        (fun p q => q.2.av.sti ≤ p.2.av.sti
          ∧ (p.2.av.sti = q.2.av.sti → p.1 < q.1)) := by
  refine ⟨ecanupdate_length as e, ecanupdate_sorted as e, rfl,
    bubbleN_perm _ _, ?_⟩
  have hstab0 : (livePairs as).Pairwise
      (fun p q => p.2.av.sti = q.2.av.sti → p.1 < q.1) := by
    refine (livePairsFrom_pairwise as.atoms 0).imp ?_
    intro a b h _
    exact h
  exact (bubbleN_sorted (livePairs as).length (livePairs as) rfl).and
    (bubbleN_stable _ _ hstab0)

/-- C10.  `ecanallocate` and `ecandecay` both end by recomputing the cached
focus through `ecanupdate` on the mutated store, so immediately afterwards
the focus already has the `min(focus_size, live count)` length and the
non-increasing STI order, with no separate `update` call. -/
theorem claim_C10 (as : AtomSpace) (e : EcanNetwork) (aid : ℕ) (d : ℤ)
    (rate : ℚ) :
    (ecanallocate as e aid d).2 = ecanupdate (ecanallocate as e aid d).1 e
    ∧ (ecandecay as e rate).2 = ecanupdate (ecandecay as e rate).1 e
    ∧ (ecanallocate as e aid d).2.focusatoms.length
        = min e.attentionalfocus (liveAtoms (ecanallocate as e aid d).1).length
    ∧ (ecanallocate as e aid d).2.focusatoms.Pairwise
        (fun a b => b.av.sti ≤ a.av.sti)
    ∧ (ecandecay as e rate).2.focusatoms.length
        = min e.attentionalfocus (liveAtoms (ecandecay as e rate).1).length
    ∧ (ecandecay as e rate).2.focusatoms.Pairwise
        (fun a b => b.av.sti ≤ a.av.sti) :=
  ⟨rfl, rfl, ecanupdate_length _ e, ecanupdate_sorted _ e,
    ecanupdate_length _ e, ecanupdate_sorted _ e⟩

/-! ### Frame effect of `ecanspread` -/

/-- Mapping a function over the slots touches exactly the live atoms. -/
theorem filterMap_id_map_optionMap (g : Atom → Atom) (l : List (Option Atom)) :
    (l.map (Option.map g)).filterMap id = (l.filterMap id).map g := by
  induction l with
  | nil => rfl
  | cons o rest ih => cases o <;> simp [ih]

/-- `storeModify` extensionally: every live atom with the id is rewritten,
every other live atom is untouched. -/
theorem liveAtoms_storeModify (as : AtomSpace) (aid : ℕ) (f : Atom → Atom) :
    liveAtoms (storeModify as aid f)
      = (liveAtoms as).map (fun a => if a.id = aid then f a else a) := by
  show (as.atoms.map (Option.map _)).filterMap id = _
  rw [filterMap_id_map_optionMap]
  rfl

/-- In a store whose live atoms carry strictly increasing ids, dereferencing
a live atom's id finds exactly that atom. -/
theorem find_id_of_mem (l : List Atom)
    (hwf : l.Pairwise (fun a b => a.id < b.id)) (a : Atom) (ha : a ∈ l) :
    l.find? (fun x => x.id == a.id) = some a := by
  induction l with
  | nil => cases ha
  | cons b rest ih =>
    obtain ⟨hb, hrest⟩ := List.pairwise_cons.1 hwf
    rcases List.mem_cons.1 ha with rfl | ha'
    · rw [List.find?_cons_of_pos _ (by simp)]
    · have hne : b.id ≠ a.id := by
        have := hb a ha'
        omega
      rw [List.find?_cons_of_neg _ (by simp [hne])]
      exact ih hrest ha'

/-- The STI update applied to one incoming link by `ecanspread`: the old
STI plus the increment, narrowed through the 16-bit `short` store-back of
`ecanallocate`. -/
def stiBump (d : ℤ) (a : Atom) : Atom :=
  { a with av := { a.av with sti := wrap16 (a.av.sti + d) } }

/-- Effect on the store of the `ecanallocate` loop of `ecanspread`: each
listed link (the ids are pairwise distinct) receives the increment exactly
once, and no other atom is touched. -/
theorem ecanspread_foldl (d : ℤ) (ls : List Atom) :
    ∀ (as : AtomSpace) (e : EcanNetwork),
      ls.Pairwise (fun a b => a.id < b.id) →
      liveAtoms ((ls.foldl (fun st l => ecanallocate st.1 st.2 l.id d)
          (as, e)).1)
        = (liveAtoms as).map (fun a =>
            if a.id ∈ ls.map Atom.id then stiBump d a else a) := by
  induction ls with
  | nil =>
    intro as e _
    simp
  | cons l rest ih =>
    intro as e hwf
    obtain ⟨hl, hrest⟩ := List.pairwise_cons.1 hwf
    show liveAtoms ((rest.foldl _
      (ecanallocate as e l.id d)).1) = _
    rw [ih _ _ hrest]
    show (liveAtoms (storeModify as l.id _)).map _ = _
    rw [liveAtoms_storeModify, List.map_map]
    apply List.map_congr_left
    intro a _
    show (if (if a.id = l.id then stiBump d a else a).id ∈ rest.map Atom.id
        then stiBump d (if a.id = l.id then stiBump d a else a)
        else (if a.id = l.id then stiBump d a else a))
      = if a.id ∈ (l :: rest).map Atom.id then stiBump d a else a
    by_cases hid : a.id = l.id
    · have hnot : a.id ∉ rest.map Atom.id := by
        intro hmem
        obtain ⟨b, hb, hbid⟩ := List.mem_map.1 hmem
        have := hl b hb
        omega
      rw [if_pos hid]
      have hbid : (stiBump d a).id = a.id := rfl
      rw [if_neg (by rw [hbid]; exact hnot)]
      rw [if_pos (by simp [hid])]
    · rw [if_neg hid]
      by_cases hmem : a.id ∈ rest.map Atom.id
      · rw [if_pos hmem, if_pos (by simp [hmem])]
      · rw [if_neg hmem, if_neg (by simp [hid, hmem])]

/-- C8 — amended.  For a well-formed store (live atoms in creation order
with strictly increasing ids; every outgoing id smaller than its link's
id) and a live source atom: if `source.sti <= 0`, `ecanspread` is a
complete no-op; otherwise with a nonempty incoming set every incoming
link's STI becomes the 16-bit `short` wrap of its old value plus
`source.sti / (n + 1)` (integer division, `n` incoming links) — not the
unwrapped sum, which the C `short` store-back falsifies at reachable
inputs (see the counterexample) — while every other atom, the source
included, is unchanged; and with an empty incoming set nothing changes. -/
theorem claim_C8 (as : AtomSpace) (e : EcanNetwork) (src : Atom)
    (hwf1 : (liveAtoms as).Pairwise (fun a b => a.id < b.id))
    (hwf2 : ∀ a ∈ liveAtoms as, ∀ oid ∈ a.outgoing, oid < a.id)
    (hsrc : src ∈ liveAtoms as) :
    (src.av.sti ≤ 0 → ecanspread as e src.id = (as, e))
    ∧ (0 < src.av.sti → atomgetincoming as src.id ≠ [] →
        liveAtoms (ecanspread as e src.id).1
          = (liveAtoms as).map (fun a =>
              if a.id ∈ (atomgetincoming as src.id).map Atom.id then
                stiBump (src.av.sti /
                  ((atomgetincoming as src.id).length + 1)) a
              else a)
        ∧ atomderef (ecanspread as e src.id).1 src.id = some src)
    ∧ (0 < src.av.sti → atomgetincoming as src.id = [] →
        ecanspread as e src.id = (as, e)) := by
  have hderef : atomderef as src.id = some src :=
    find_id_of_mem (liveAtoms as) hwf1 src hsrc
  have hinc_pw : (atomgetincoming as src.id).Pairwise
      (fun a b => a.id < b.id) :=
    List.Pairwise.sublist (List.filter_sublist _) hwf1
  have hsrc_notin : src.id ∉ (atomgetincoming as src.id).map Atom.id := by
    intro hmem
    obtain ⟨l, hl, hlid⟩ := List.mem_map.1 hmem
    have hlin : l ∈ liveAtoms as := List.mem_of_mem_filter hl
    have hfind1 := find_id_of_mem (liveAtoms as) hwf1 l hlin
    have hfind2 := find_id_of_mem (liveAtoms as) hwf1 src hsrc
    rw [hlid] at hfind1
    have hls : l = src := by
      have := hfind1.symm.trans hfind2
      exact Option.some.inj this
    have hcontains := List.of_mem_filter hl
    rw [hls] at hcontains
    have hmem2 : src.id ∈ src.outgoing := by
      simpa [List.contains_iff_exists_mem_beq] using hcontains
    have := hwf2 src hsrc src.id hmem2
    omega
  refine ⟨?_, ?_, ?_⟩
  · intro hle
    simp [ecanspread, hderef, hle]
  · intro hpos hne
    have hcond : ¬ src.av.sti ≤ 0 := by omega
    have hnotempty : (atomgetincoming as src.id).isEmpty = false := by
      cases h : atomgetincoming as src.id with
      | nil => exact absurd h hne
      | cons a l => rfl
    have hrun : (ecanspread as e src.id)
        = (atomgetincoming as src.id).foldl
            (fun st l => ecanallocate st.1 st.2 l.id
              (src.av.sti / ((atomgetincoming as src.id).length + 1)))
            (as, e) := by
      simp [ecanspread, hderef, hcond, hnotempty]
    have hmap := ecanspread_foldl
      (src.av.sti / ((atomgetincoming as src.id).length + 1))
      (atomgetincoming as src.id) as e hinc_pw
    refine ⟨by rw [hrun]; exact hmap, ?_⟩
    show atomderef (ecanspread as e src.id).1 src.id = some src
    have hlive : liveAtoms (ecanspread as e src.id).1
        = (liveAtoms as).map (fun a =>
            if a.id ∈ (atomgetincoming as src.id).map Atom.id then
              stiBump (src.av.sti /
                ((atomgetincoming as src.id).length + 1)) a
            else a) := by
      rw [hrun]; exact hmap
    show (liveAtoms (ecanspread as e src.id).1).find?
      (fun x => x.id == src.id) = some src
    rw [hlive, List.find?_map]
    have hfe : ((fun x : Atom => x.id == src.id) ∘ (fun a =>
        if a.id ∈ (atomgetincoming as src.id).map Atom.id then
          stiBump (src.av.sti /
            ((atomgetincoming as src.id).length + 1)) a
        else a)) = (fun x : Atom => x.id == src.id) := by
      funext a
      show ((if a.id ∈ (atomgetincoming as src.id).map Atom.id then
          stiBump (src.av.sti /
            ((atomgetincoming as src.id).length + 1)) a
        else a).id == src.id) = (a.id == src.id)
      by_cases hmem : a.id ∈ (atomgetincoming as src.id).map Atom.id
      · rw [if_pos hmem]; rfl
      · rw [if_neg hmem]
    rw [hfe, find_id_of_mem (liveAtoms as) hwf1 src hsrc, Option.map_some',
      if_neg hsrc_notin]
  · intro hpos hempty
    have hcond : ¬ src.av.sti ≤ 0 := by omega
    simp [ecanspread, hderef, hcond, hempty]

/-- Witness store for C8: node `A` (id 1, STI 10), node `B` (id 2), and an
inheritance link `A→B` (id 3); `incoming(A) = [link 3]`, so the spread
increment is `10 / 2 = 5`. -/
def c8store : AtomSpace :=
  let s1 := atomcreate atomspacecreate ConceptNode (some "A")
  let s2 := atomcreate s1.1 ConceptNode (some "B")
  let s3 := linkcreate s2.1 InheritanceLink [1, 2]
  atomsetattention s3.1 1 ⟨10, 0, 0⟩

/-- The source atom of the C8 witness (node `A` after its STI was set). -/
def c8src : Atom :=
  { id := 1, type := ConceptNode, name := some "A", outgoing := [],
    tv := ⟨1/2, 0, 0⟩, av := ⟨10, 0, 0⟩ }

set_option maxRecDepth 10000 in
/-- Witness for C8 at the concrete store: the one incoming link's STI rises
by exactly `10 / 2 = 5` and the source dereferences unchanged. -/
theorem claim_C8_witness :
    liveAtoms (ecanspread c8store (ecaninit 100 100) c8src.id).1
      = (liveAtoms c8store).map (fun a =>
          if a.id ∈ (atomgetincoming c8store c8src.id).map Atom.id then
            stiBump (c8src.av.sti /
              ((atomgetincoming c8store c8src.id).length + 1)) a
          else a)
    ∧ atomderef (ecanspread c8store (ecaninit 100 100) c8src.id).1 c8src.id
        = some c8src := by
  have h := (claim_C8 c8store (ecaninit 100 100) c8src (by decide) (by decide)
    (by decide)).2.1 (by decide) (by decide)
  exact h

/-- The C8 counterexample store: node `A` (id 1, STI 30000), node `B`
(id 2), and an inheritance link `A→B` (id 3, STI 30000) — every attention
value in `short` range. -/
def c8wrapstore : AtomSpace :=
  let s1 := atomcreate atomspacecreate ConceptNode (some "A")
  let s2 := atomcreate s1.1 ConceptNode (some "B")
  let s3 := linkcreate s2.1 InheritanceLink [1, 2]
  atomsetattention (atomsetattention s3.1 1 ⟨30000, 0, 0⟩) 3 ⟨30000, 0, 0⟩

set_option maxRecDepth 10000 in
/-- C8 — counterexample.  Spreading from node `A` (STI 30000, one incoming
link) computes the increment `30000 / 2 = 15000`, but the link's STI does
not grow by it: `av.sti += sti` stores the sum back into a 16-bit `short`,
so `30000 + 15000 = 45000` wraps to `-20536`, refuting "increased by
exactly `source.sti / (n + 1)`" at inputs every `short` field can hold. -/
theorem claim_C8_counterexample :
    (atomderef c8wrapstore 3).map (fun a => a.av.sti) = some 30000
    ∧ (atomgetincoming c8wrapstore 1).length = 1
    ∧ (atomderef (ecanspread c8wrapstore (ecaninit 100 100) 1).1 3).map
        (fun a => a.av.sti) = some (-20536)
    ∧ (-20536 : ℤ) ≠ 30000 + 30000 / (1 + 1) := by
  refine ⟨by decide, by decide, by decide, by decide⟩

/-! ### Pattern matching (pattern.c) and the URE chainer (ure.c) -/

/-- `struct Pattern` (atomspace.h): a structural query template, recursive
through its outgoing sub-patterns.  `ptype = 0` means "any type", an absent
name matches any name, and `wildcard` matches anything outright. -/
inductive Pattern where
  | mk (ptype : ℤ) (pname : Option String) (outgoing : List Pattern)
      (wildcard : Bool)

/-- The `type` field of a pattern. -/
def Pattern.ptype : Pattern → ℤ
  | .mk t _ _ _ => t

/-- The `name` field of a pattern. -/
def Pattern.pname : Pattern → Option String
  | .mk _ n _ _ => n

/-- The `outgoing` sub-patterns of a pattern. -/
def Pattern.outgoing : Pattern → List Pattern
  | .mk _ _ o _ => o

/-- The `wildcard` flag of a pattern. -/
def Pattern.wildcard : Pattern → Bool
  | .mk _ _ _ w => w

mutual

/-- `patternmatchatom` (pattern.c lines 9-33): wildcard matches anything; a
nonzero pattern type must equal the atom type; names are compared only when
both are present; arities must agree and every sub-pattern must match the
dereferenced outgoing atom (the C code dereferences the stored pointer; a
dangling entry, on which C would fault, fails the match here). -/
def patternmatchatom (as : AtomSpace) (a : Atom) (p : Pattern) : Bool :=
  match p with
  | .mk pty pnm poutg pwc =>
    if pwc then true
    else if pty ≠ 0 ∧ a.type ≠ pty then false
    else if (match pnm, a.name with
             | some pn, some an => pn != an
             | _, _ => false) then false
    else if poutg.length ≠ a.outgoing.length then false
    else patternmatchouts as poutg a.outgoing

/-- The sub-pattern loop of `patternmatchatom` (arity equality was already
checked, so the lists step in lock-step). -/
def patternmatchouts (as : AtomSpace) : List Pattern → List ℕ → Bool
  | [], _ => true
  | _ :: _, [] => true
  | p :: ps, oid :: oids =>
    (match atomderef as oid with
     | some child => patternmatchatom as child p
     | none => false)
    && patternmatchouts as ps oids

end

/-- `atommatch` (pattern.c lines 35-63): every live atom matching the
pattern, in store order. -/
def atommatch (as : AtomSpace) (pat : Pattern) : List Atom :=
  (liveAtoms as).filter (fun a => patternmatchatom as a pat)

/-- `struct PlnFormula` (pln.h): only the `compute` member is consulted by
ure.c (through nullable pointers, hence the `Option`s); the `strength` and
`confidence` members are never read and are not modelled. -/
structure PlnFormula where
  type : ℤ
  compute : Option (List TruthValue → TruthValue)

/-- `struct PlnRule` (pln.h). -/
structure PlnRule where
  id : ℤ
  name : Option String
  premises : List Pattern
  conclusion : Option Pattern
  formula : Option PlnFormula
  weight : ℚ

/-- `struct UreChainer` (pln.h): its rules are the wrapped `PlnInference`
rule list (`ure->pln->rules`, read by `uregetrules`); `rulebase` is never
consulted by `urechain` and is not modelled. -/
structure UreChainer where
  rules : List PlnRule
  maxiter : ℕ
  complexity : ℚ

/-- `ureinit`: no rules, `maxiter = 100`, `complexity = 1.0`. -/
def ureinit : UreChainer :=
  { rules := [], maxiter := 100, complexity := 1 }

/-- `urerulepriority` (ure.c lines 56-63). -/
def urerulepriority (rule : PlnRule) (complexity : ℚ) : ℚ :=
  rule.weight / (1 + complexity)

/-- `urematchpremises` (ure.c lines 66-96): first match per premise
pattern; success iff every premise found one. -/
def urematchpremises (as : AtomSpace) (r : PlnRule) : List Atom × Bool :=
  if r.premises.isEmpty then ([], false)
  else
    let ms := r.premises.filterMap (fun p => (atommatch as p).head?)
    (ms, ms.length == r.premises.length)

/-- `ureapplyrule` (ure.c lines 99-139): synthesize the conclusion atom
(link over the premises when the conclusion pattern has outgoing arity and
at least two premises matched, node otherwise), then set its truth from the
rule formula, or by deduction over the first two premises when no formula
is attached. -/
def ureapplyrule (as : AtomSpace) (r : PlnRule) (premises : List Atom) :
    AtomSpace × Option Atom :=
  match r.conclusion with
  | none => (as, none)
  | some concl =>
    let s :=
      if concl.outgoing.length > 0 ∧ premises.length ≥ 2 then
        linkcreate as concl.ptype (premises.map Atom.id)
      else
        atomcreate as concl.ptype concl.pname
    match r.formula.bind PlnFormula.compute with
    | some comp =>
      if premises.length > 0 then
        let tv := comp (premises.map Atom.tv)
        (atomsettruth s.1 s.2.id tv, some { s.2 with tv := tv })
      else (s.1, some s.2)
    | none =>
      match premises with
      | p0 :: p1 :: _ =>
        let tv := plndeduction p0.tv p1.tv
        (atomsettruth s.1 s.2.id tv, some { s.2 with tv := tv })
      | _ => (s.1, some s.2)

/-- The best-rule selection loop of `urechain` (ure.c lines 183-196): the
highest-priority rule, scanned in order, whose premises currently match;
`bestpriority` starts at `0.0` and only strict improvements are taken. -/
def ureselect (as : AtomSpace) (rules : List PlnRule) (complexity : ℚ) :
    Option PlnRule :=
  (rules.foldl (fun acc r =>
    let pr := urerulepriority r complexity
    if pr > acc.2 ∧ (urematchpremises as r).2 then (some r, pr) else acc)
    ((none : Option PlnRule), (0 : ℚ))).1

/-- The iteration loop of `urechain` (ure.c lines 179-226): apply the best
matching rule, break on reaching the target, bump the complexity penalty by
`0.1` per completed iteration, and fall back to one `plnforward` step (then
stop) when no rule matches. -/
def ureiter : ℕ → AtomSpace → UreChainer → Option Atom → ℕ → List Atom →
    AtomSpace × UreChainer × List Atom
  | 0, as, u, _, _, acc => (as, u, acc)
  | n + 1, as, u, target, maxres, acc =>
    if acc.length ≥ maxres then (as, u, acc)
    else
      match ureselect as u.rules u.complexity with
      | some r =>
        let m := urematchpremises as r
        if m.2 then
          let s := ureapplyrule as r m.1
          match s.2 with
          | some na =>
            let acc1 := acc ++ [na]
            if (match target with
                | some t => na.id == t.id
                | none => false) then
              (s.1, u, acc1)
            else
              ureiter n s.1 { u with complexity := u.complexity + 1/10 }
                target maxres acc1
          | none =>
            ureiter n s.1 { u with complexity := u.complexity + 1/10 }
              target maxres acc
        else
          ureiter n as { u with complexity := u.complexity + 1/10 }
            target maxres acc
      | none =>
        let f := plnforward as target 1
        (f.1, u, acc ++ f.2.take (maxres - acc.length))

/-- `urechain` (ure.c lines 141-230): with no registered rules, delegate to
`plnforward(target, maxiter)` and copy its results (bounded by
`maxresults = maxiter * 2`); otherwise run the prioritized iteration. -/
def urechain (as : AtomSpace) (u : UreChainer) (target : Option Atom) :
    AtomSpace × UreChainer × List Atom :=
  let maxres := u.maxiter * 2
  if u.rules.isEmpty then
    let f := plnforward as target u.maxiter
    (f.1, u, f.2.take maxres)
  else
    ureiter u.maxiter as u target maxres []

/-! ### C9: the no-rules case of `urechain` is exactly `plnforward` -/

/-- One forward round never pushes the result count past `maxresults`. -/
theorem plnstep_length (target : Option Atom) (links : List Atom)
    (maxres : ℕ) (st : AtomSpace × List Atom) (h : st.2.length ≤ maxres) :
    (plnstep target links maxres st).2.length ≤ maxres := by
  unfold plnstep
  generalize plnpairs links = ps
  induction ps generalizing st with
  | nil => exact h
  | cons p ps ih =>
    rw [List.foldl_cons]
    apply ih
    show (if st.2.length ≥ maxres then st
      else if (match target with
               | some t => !plnrelatesto p.1 t
               | none => false) then st
      else
        match plnapplydeduction st.1 p.1 p.2 with
        | (as1, some newatom) => (as1, st.2 ++ [newatom])
        | (as1, none) => (as1, st.2)).2.length ≤ maxres
    by_cases h1 : st.2.length ≥ maxres
    · rw [if_pos h1]; exact h
    · rw [if_neg h1]
      cases htar : (match target with
                    | some t => !plnrelatesto p.1 t
                    | none => false) with
      | true =>
        rw [if_pos rfl]; exact h
      | false =>
        rw [if_neg (by simp)]
        rcases happ : plnapplydeduction st.1 p.1 p.2 with ⟨as1, res⟩
        cases res with
        | some na =>
          show (st.2 ++ [na]).length ≤ maxres
          rw [List.length_append]
          simp only [List.length_singleton]
          omega
        | none => exact h

/-- The round loop never pushes the result count past `maxresults`. -/
theorem plnrounds_length (n : ℕ) (target : Option Atom) (links : List Atom)
    (maxres : ℕ) :
    ∀ st : AtomSpace × List Atom, st.2.length ≤ maxres →
      (plnrounds n target links maxres st).2.length ≤ maxres := by
  induction n with
  | zero => intro st h; exact h
  | succ n ih =>
    intro st h
    show (if st.2.length ≥ maxres then st
      else
        let st1 := plnstep target links maxres st
        if st1.2.length = 0 then st1
        else plnrounds n target links maxres st1).2.length ≤ maxres
    by_cases h1 : st.2.length ≥ maxres
    · rw [if_pos h1]; exact h
    · rw [if_neg h1]
      have h2 := plnstep_length target links maxres st h
      by_cases h3 : (plnstep target links maxres st).2.length = 0
      · rw [if_pos h3]; exact h2
      · rw [if_neg h3]; exact ih _ h2

/-- `plnforward` returns at most `maxsteps * 2` atoms. -/
theorem plnforward_length (as : AtomSpace) (target : Option Atom)
    (maxsteps : ℕ) :
    (plnforward as target maxsteps).2.length ≤ maxsteps * 2 :=
  plnrounds_length maxsteps target _ _ (as, []) (by simp)

/-- C9.  With no registered rules (`nrules == 0` / `rules == nil`),
`urechain(target)` performs exactly `plnforward(target, maxiter)` on the
same store: same final store and the same result list (the copy loop's
`maxresults = maxiter * 2` bound never truncates, since `plnforward`
produces at most that many results). -/
theorem claim_C9 (as : AtomSpace) (u : UreChainer) (target : Option Atom)
    (h : u.rules = []) :
    urechain as u target
      = ((plnforward as target u.maxiter).1, u,
         (plnforward as target u.maxiter).2) := by
  unfold urechain
  rw [h]
  rw [if_pos (show ([] : List PlnRule).isEmpty = true from rfl)]
  have hlen := plnforward_length as target u.maxiter
  show ((plnforward as target u.maxiter).1, u,
      List.take (u.maxiter * 2) (plnforward as target u.maxiter).2) = _
  rw [List.take_of_length_le hlen]

/-- Witness for C9: a rule-less chainer with `maxiter = 2` on the C1
scenario store equals plain forward chaining there. -/
theorem claim_C9_witness :
    (⟨[], 2, 1⟩ : UreChainer).rules = []
    ∧ urechain c1store ⟨[], 2, 1⟩ (some c1A)
        = ((plnforward c1store (some c1A) 2).1, ⟨[], 2, 1⟩,
           (plnforward c1store (some c1A) 2).2) :=
  ⟨rfl, claim_C9 c1store ⟨[], 2, 1⟩ (some c1A) rfl⟩

/-! ### Serialization (serialize.c)

The import loop is modelled on parsed records (`SLine`); the text wire
between export and import is modelled separately, in the C5 section, at
the token level (`Tok`): a written line is the list of whitespace-separated
tokens the importer's `tokenize` recovers from it, so a name containing
whitespace genuinely splits into several tokens there, and the 32-entry
`fields` array genuinely caps what a line can carry.  Numeric tokens are
carried exactly (`%f`'s six-decimal rounding in particular is abstracted
as exact).  The `_` convention for absent names is modelled, because
export and import treat it asymmetrically. -/

/-- A parsed line of the export/import format: `NODE`, `LINK`, `END`, or
anything else (skipped by the import loop). -/
inductive SLine where
  | node (oldid : ℕ) (ty : ℤ) (nametok : String) (s c : ℚ) (cnt : ℕ)
      (sti lti vlti : ℤ)
  | link (oldid : ℕ) (ty : ℤ) (outg : List ℕ) (s c : ℚ) (cnt : ℕ)
      (sti lti vlti : ℤ)
  | endmark
  | other
  deriving DecidableEq, Repr

/-- `findbyoldid` (serialize.c lines 102-111): first map entry, scanning
from index 0 (insertion order), with the requested old id.  The C map
stores atom pointers; here the created atoms' ids. -/
def findbyoldid (idmap : List (ℕ × ℕ)) (oldid : ℕ) : Option ℕ :=
  (idmap.find? (fun e => e.1 == oldid)).map (fun e => e.2)

/-- The NODE branch of the import loop (serialize.c lines 176-202): create
the node (name token `_` becomes an absent name), set truth and
attention. -/
def importnode (as : AtomSpace) (ty : ℤ) (nametok : String)
    (tv : TruthValue) (av : AttentionValue) : AtomSpace × Atom :=
  let r := atomcreate as ty (if nametok == "_" then none else some nametok)
  (atomsetattention (atomsettruth r.1 r.2.id tv) r.2.id av, r.2)

/-- The LINK branch of the import loop: resolve the outgoing ids through
the current id map (unresolved becomes the nil id 0), create the link, set
truth and attention. -/
def importlink (as : AtomSpace) (ty : ℤ) (outg : List ℕ)
    (idmap : List (ℕ × ℕ)) (tv : TruthValue) (av : AttentionValue) :
    AtomSpace × Atom :=
  let r := linkcreate as ty
    (outg.map (fun oid => (findbyoldid idmap oid).getD 0))
  (atomsetattention (atomsettruth r.1 r.2.id tv) r.2.id av, r.2)

/-- The line loop of `atomspaceimport` (serialize.c lines 162-247): NODE
and LINK lines create atoms — LINK outgoing ids resolving through the id
map *as filled so far* — and append to the id map; `END` stops the loop;
any other line is skipped.  Field-count validation is absorbed by the
`SLine` shape. -/
def importlines : List SLine → AtomSpace → List (ℕ × ℕ) → AtomSpace
  | [], as, _ => as
  | SLine.endmark :: _, as, _ => as
  | SLine.other :: rest, as, idmap => importlines rest as idmap
  | SLine.node oldid ty nametok s c cnt sti lti vlti :: rest, as, idmap =>
    let r := importnode as ty nametok ⟨s, c, cnt⟩ ⟨sti, lti, vlti⟩
    importlines rest r.1 (idmap ++ [(oldid, r.2.id)])
  | SLine.link oldid ty outg s c cnt sti lti vlti :: rest, as, idmap =>
    let r := importlink as ty outg idmap ⟨s, c, cnt⟩ ⟨sti, lti, vlti⟩
    importlines rest r.1 (idmap ++ [(oldid, r.2.id)])

/-- `atomspaceimport` (serialize.c lines 113-252): process the lines into
a fresh empty store.  The header count only sizes the C id-map allocation
and is otherwise ignored (a malformed header, not representable in
`SLine`, makes the C function return nil before reading any line). -/
def atomspaceimport (inp : ℕ × List SLine) : AtomSpace :=
  importlines inp.2 atomspacecreate []

/-- The name-match scan of `atomspacemerge` (serialize.c lines 314-326):
the first destination atom, in store order, with a present name, equal
type, and equal name — attempted only when the source atom has a name. -/
def findmergematch (dst : AtomSpace) (a : Atom) : Option Atom :=
  match a.name with
  | none => none
  | some nm =>
    (liveAtoms dst).find? (fun d =>
      d.name.isSome && d.type == a.type && d.name == some nm)

/-- The truth combination of `atomspacemerge` (serialize.c lines 329-345):
confidence-weighted revision when some confidence is present, otherwise
the plain average of strengths with zero confidence (this zero case
differs from `plnrevision`, which returns strength `0.5`). -/
def mergerevise (tvdst tvsrc : TruthValue) : TruthValue :=
  let wa := tvdst.confidence
  let wb := tvsrc.confidence
  let wtotal := wa + wb
  if wtotal > 0 then
    { strength := (tvdst.strength * wa + tvsrc.strength * wb) / wtotal,
      confidence := wtotal / (wtotal + 1),
      count := tvdst.count + tvsrc.count }
  else
    { strength := (tvdst.strength + tvsrc.strength) / 2,
      confidence := 0,
      count := tvdst.count + tvsrc.count }

/-- The per-source-atom body of `atomspacemerge` (serialize.c lines
309-354): revise the truth of a name match when one exists; otherwise copy
only outgoing-less atoms — through `atomcreate`, i.e. with *default* truth
and attention — and skip link atoms entirely (the code's own comment:
"Links would need special handling to resolve references"). -/
def mergeStep (dst : AtomSpace) (a : Atom) : AtomSpace :=
  match findmergematch dst a with
  | some e => atomsettruth dst e.id (mergerevise e.tv a.tv)
  | none =>
    if a.outgoing.isEmpty then (atomcreate dst a.type a.name).1 else dst

/-- `atomspacemerge` (serialize.c lines 296-360): fold the per-atom body
over the live source atoms in store order. -/
def atomspacemerge (dst src : AtomSpace) : AtomSpace :=
  (liveAtoms src).foldl mergeStep dst

/-! ### C3: what `atomspacemerge` actually does -/

/-- The C3 counterexample source store: nodes `X` (id 1, truth (0.9,0.8))
and `Y` (id 2), plus an inheritance link `X→Y` (id 3). -/
def c3src : AtomSpace :=
  let s1 := atomcreate atomspacecreate ConceptNode (some "X")
  let s1b := atomsettruth s1.1 1 ⟨9/10, 8/10, 0⟩
  let s2 := atomcreate s1b ConceptNode (some "Y")
  (linkcreate s2.1 InheritanceLink [1, 2]).1

/-- C3 — counterexample.  Merging a three-atom source (two named nodes and
a link) into an empty store yields only two atoms: the link atom is never
copied, and the copied nodes carry the *default* truth `(0.5, 0.0, 0)`
rather than the source truth — the claim's "otherwise copy the atom,
including link atoms, recursively resolving outgoing references" does not
hold of the code. -/
theorem claim_C3_counterexample :
    (liveAtoms c3src).length = 3
    ∧ (∃ a ∈ liveAtoms c3src, a.outgoing ≠ [] ∧ a.type = InheritanceLink)
    ∧ (∃ a ∈ liveAtoms c3src, a.tv = ⟨9/10, 8/10, 0⟩)
    ∧ (liveAtoms (atomspacemerge atomspacecreate c3src)).length = 2
    ∧ (∀ a ∈ liveAtoms (atomspacemerge atomspacecreate c3src),
        a.outgoing = [] ∧ a.type ≠ InheritanceLink ∧ a.tv = ⟨1/2, 0, 0⟩) := by
  decide

/-- C3 — amended.  `atomspacemerge` processes every live source atom in
order, and each step does exactly this: when a (necessarily named) source
atom has a `(kind, name)` match among the destination's named atoms, the
first such match's truth becomes the confidence-weighted revision (with
average-strength fallback at zero total confidence); an unmatched atom
with an empty outgoing set is appended as a fresh atom with the source's
kind and name but **default** truth and attention; an unmatched atom with
outgoing entries — in particular every link — is skipped, leaving the
destination unchanged. -/
theorem claim_C3 (dst src : AtomSpace) (a e : Atom) :
    (atomspacemerge dst src = (liveAtoms src).foldl mergeStep dst)
    ∧ (findmergematch dst a = none → a.outgoing ≠ [] →
        mergeStep dst a = dst)
    ∧ (findmergematch dst a = some e →
        liveAtoms (mergeStep dst a)
          = (liveAtoms dst).map (fun d =>
              if d.id = e.id then { d with tv := mergerevise e.tv a.tv }
              else d))
    ∧ (findmergematch dst a = none → a.outgoing = [] →
        liveAtoms (mergeStep dst a)
          = liveAtoms dst
            ++ [{ id := dst.nextatomid, type := a.type, name := a.name,
                  outgoing := [], tv := ⟨1/2, 0, 0⟩, av := ⟨0, 0, 0⟩ }]) := by
  refine ⟨rfl, ?_, ?_, ?_⟩
  · intro hm hout
    unfold mergeStep
    rw [hm]
    show (if a.outgoing.isEmpty then (atomcreate dst a.type a.name).1
      else dst) = dst
    rw [if_neg (by simpa using hout)]
  · intro hm
    unfold mergeStep
    rw [hm]
    show liveAtoms (atomsettruth dst e.id (mergerevise e.tv a.tv)) = _
    exact liveAtoms_storeModify dst e.id _
  · intro hm hout
    unfold mergeStep
    rw [hm]
    show liveAtoms (if a.outgoing.isEmpty then (atomcreate dst a.type a.name).1
      else dst) = _
    rw [if_pos (by simpa using hout)]
    show (dst.atoms ++ [some _]).filterMap id = _
    rw [List.filterMap_append]
    rfl

/-- Witness for the amended C3: on the counterexample inputs, the link atom
(id 3 of `c3src`) is skipped and the node `X` is appended with default
truth. -/
theorem claim_C3_witness :
    (findmergematch atomspacecreate
        ⟨3, InheritanceLink, none, [1, 2], ⟨1/2, 0, 0⟩, ⟨0, 0, 0⟩⟩ = none)
    ∧ mergeStep atomspacecreate
        ⟨3, InheritanceLink, none, [1, 2], ⟨1/2, 0, 0⟩, ⟨0, 0, 0⟩⟩
        = atomspacecreate
    ∧ liveAtoms (mergeStep atomspacecreate
        ⟨1, ConceptNode, some "X", [], ⟨9/10, 8/10, 0⟩, ⟨0, 0, 0⟩⟩)
        = [{ id := 1, type := ConceptNode, name := some "X", outgoing := [],
             tv := ⟨1/2, 0, 0⟩, av := ⟨0, 0, 0⟩ }] := by
  refine ⟨by decide, ?_, ?_⟩
  · exact (claim_C3 atomspacecreate atomspacecreate
      ⟨3, InheritanceLink, none, [1, 2], ⟨1/2, 0, 0⟩, ⟨0, 0, 0⟩⟩
      ⟨3, InheritanceLink, none, [1, 2], ⟨1/2, 0, 0⟩, ⟨0, 0, 0⟩⟩).2.1
      (by decide) (by decide)
  · have h := (claim_C3 atomspacecreate atomspacecreate
      ⟨1, ConceptNode, some "X", [], ⟨9/10, 8/10, 0⟩, ⟨0, 0, 0⟩⟩
      ⟨1, ConceptNode, some "X", [], ⟨9/10, 8/10, 0⟩, ⟨0, 0, 0⟩⟩).2.2.2
      (by decide) (by decide)
    rw [h]
    rfl

/-! ### A positional characterization of `atomspaceimport`

`importlines` is shown (by one induction, `importlines_spec`) to build, for
the `k`-th processed creating line, an atom with the fresh id `k + 1` whose
link targets resolve through the id map of the *strictly earlier* lines —
the exact content of the forward-reference question in C4 and the
round-trip in C5. -/

/-- Does a line create an atom? -/
def isCreating : SLine → Bool
  | .node _ _ _ _ _ _ _ _ _ => true
  | .link _ _ _ _ _ _ _ _ _ => true
  | _ => false

/-- The source-store id carried by a creating line (0 otherwise). -/
def oldidOf : SLine → ℕ
  | .node i _ _ _ _ _ _ _ _ => i
  | .link i _ _ _ _ _ _ _ _ => i
  | _ => 0

/-- The lines the import loop actually processes: everything before the
first `END`, non-record lines dropped. -/
def procLines (lines : List SLine) : List SLine :=
  (lines.takeWhile (fun l => l != SLine.endmark)).filter isCreating

/-- The atom a creating line builds, given its fresh id and the id map at
the moment the line is processed. -/
def atomOfLine (newid : ℕ) (idmap : List (ℕ × ℕ)) : SLine → Atom
  | .node _ ty nametok s c cnt sti lti vlti =>
    { id := newid, type := ty,
      name := if nametok == "_" then none else some nametok,
      outgoing := [], tv := ⟨s, c, cnt⟩, av := ⟨sti, lti, vlti⟩ }
  | .link _ ty outg s c cnt sti lti vlti =>
    { id := newid, type := ty, name := none,
      outgoing := outg.map (fun oid => (findbyoldid idmap oid).getD 0),
      tv := ⟨s, c, cnt⟩, av := ⟨sti, lti, vlti⟩ }
  | _ =>
    { id := newid, type := 0, name := none, outgoing := [],
      tv := ⟨0, 0, 0⟩, av := ⟨0, 0, 0⟩ }

/-- The id-translation map over a run of creating lines whose fresh ids
start at `start`. -/
def importmapOf (start : ℕ) : List SLine → List (ℕ × ℕ)
  | [] => []
  | ln :: rest => (oldidOf ln, start) :: importmapOf (start + 1) rest

/-- The atoms imported from a run of creating lines, fresh ids from
`start`, continuing from id map `idmap`. -/
def importSpecFrom (start : ℕ) (idmap : List (ℕ × ℕ)) :
    List SLine → List Atom
  | [] => []
  | ln :: rest =>
    atomOfLine start idmap ln
      :: importSpecFrom (start + 1) (idmap ++ [(oldidOf ln, start)]) rest

/-- An id-targeted update leaves a list of atoms with smaller ids alone. -/
theorem map_setid_of_lt (l : List Atom) (n : ℕ) (f : Atom → Atom)
    (h : ∀ b ∈ l, b.id < n) :
    l.map (fun a => if a.id = n then f a else a) = l := by
  induction l with
  | nil => rfl
  | cons b rest ih =>
    have hb := h b (by simp)
    rw [List.map_cons, if_neg (by omega), ih (fun x hx => h x (by simp [hx]))]

/-- The NODE import step appends exactly the finished node atom (fresh id,
parsed name, given truth and attention), provided all live ids sit below
the id counter. -/
theorem importnode_spec (as : AtomSpace) (ty : ℤ) (nametok : String)
    (tv : TruthValue) (av : AttentionValue)
    (hinv : ∀ b ∈ liveAtoms as, b.id < as.nextatomid) :
    liveAtoms (importnode as ty nametok tv av).1
      = liveAtoms as
        ++ [{ id := as.nextatomid, type := ty,
              name := if nametok == "_" then none else some nametok,
              outgoing := [], tv := tv, av := av }]
    ∧ (importnode as ty nametok tv av).1.nextatomid = as.nextatomid + 1
    ∧ (importnode as ty nametok tv av).2.id = as.nextatomid := by
  refine ⟨?_, rfl, rfl⟩
  show liveAtoms (storeModify (storeModify
    (atomcreate as ty (if nametok == "_" then none else some nametok)).1
    as.nextatomid _) as.nextatomid _) = _
  rw [liveAtoms_storeModify, liveAtoms_storeModify]
  have h1 : liveAtoms (atomcreate as ty
      (if nametok == "_" then none else some nametok)).1
      = liveAtoms as
        ++ [{ id := as.nextatomid, type := ty,
              name := if nametok == "_" then none else some nametok,
              outgoing := [], tv := ⟨1/2, 0, 0⟩, av := ⟨0, 0, 0⟩ }] := by
    show (as.atoms ++ [some _]).filterMap id = _
    rw [List.filterMap_append]
    rfl
  rw [h1, List.map_append, List.map_append,
    map_setid_of_lt (liveAtoms as) _ _ hinv,
    map_setid_of_lt (liveAtoms as) _ _ hinv]
  simp

/-- The LINK import step appends exactly the finished link atom (fresh id,
outgoing ids resolved through the current id map). -/
theorem importlink_spec (as : AtomSpace) (ty : ℤ) (outg : List ℕ)
    (idmap : List (ℕ × ℕ)) (tv : TruthValue) (av : AttentionValue)
    (hinv : ∀ b ∈ liveAtoms as, b.id < as.nextatomid) :
    liveAtoms (importlink as ty outg idmap tv av).1
      = liveAtoms as
        ++ [{ id := as.nextatomid, type := ty, name := none,
              outgoing := outg.map
                (fun oid => (findbyoldid idmap oid).getD 0),
              tv := tv, av := av }]
    ∧ (importlink as ty outg idmap tv av).1.nextatomid = as.nextatomid + 1
    ∧ (importlink as ty outg idmap tv av).2.id = as.nextatomid := by
  refine ⟨?_, rfl, rfl⟩
  show liveAtoms (storeModify (storeModify
    (linkcreate as ty (outg.map (fun oid => (findbyoldid idmap oid).getD 0))).1
    as.nextatomid _) as.nextatomid _) = _
  rw [liveAtoms_storeModify, liveAtoms_storeModify]
  have h1 : liveAtoms (linkcreate as ty
      (outg.map (fun oid => (findbyoldid idmap oid).getD 0))).1
      = liveAtoms as
        ++ [{ id := as.nextatomid, type := ty, name := none,
              outgoing := outg.map
                (fun oid => (findbyoldid idmap oid).getD 0),
              tv := ⟨1/2, 0, 0⟩, av := ⟨0, 0, 0⟩ }] := by
    show (as.atoms ++ [some _]).filterMap id = _
    rw [List.filterMap_append]
    rfl
  rw [h1, List.map_append, List.map_append,
    map_setid_of_lt (liveAtoms as) _ _ hinv,
    map_setid_of_lt (liveAtoms as) _ _ hinv]
  simp

/-- The induction behind the characterization: running the import loop
from any store (whose live ids sit below its id counter) appends exactly
the `importSpecFrom` atoms of the processed lines. -/
theorem importlines_spec :
    ∀ (lines : List SLine) (as : AtomSpace) (idmap : List (ℕ × ℕ)),
      (∀ b ∈ liveAtoms as, b.id < as.nextatomid) →
      liveAtoms (importlines lines as idmap)
        = liveAtoms as
          ++ importSpecFrom as.nextatomid idmap (procLines lines) := by
  intro lines
  induction lines with
  | nil =>
    intro as idmap _
    simp [importlines, procLines, importSpecFrom]
  | cons ln rest ih =>
    intro as idmap hinv
    cases ln with
    | endmark =>
      show liveAtoms as = _
      simp [procLines, importSpecFrom]
    | other =>
      show liveAtoms (importlines rest as idmap) = _
      rw [ih as idmap hinv]
      rfl
    | node oldid ty nametok s c cnt sti lti vlti =>
      obtain ⟨hl, hn, hid⟩ :=
        importnode_spec as ty nametok ⟨s, c, cnt⟩ ⟨sti, lti, vlti⟩ hinv
      have hinv2 : ∀ b ∈ liveAtoms
          (importnode as ty nametok ⟨s, c, cnt⟩ ⟨sti, lti, vlti⟩).1,
          b.id < (importnode as ty nametok ⟨s, c, cnt⟩
            ⟨sti, lti, vlti⟩).1.nextatomid := by
        rw [hl, hn]
        intro b hb
        rcases List.mem_append.1 hb with hb' | hb'
        · exact Nat.lt_succ_of_lt (hinv b hb')
        · rw [List.mem_singleton] at hb'
          subst hb'
          exact Nat.lt_succ_self as.nextatomid
      show liveAtoms (importlines rest
        (importnode as ty nametok ⟨s, c, cnt⟩ ⟨sti, lti, vlti⟩).1
        (idmap ++ [(oldid, (importnode as ty nametok ⟨s, c, cnt⟩
          ⟨sti, lti, vlti⟩).2.id)])) = _
      rw [ih _ _ hinv2, hl, hn, hid, List.append_assoc]
      rfl
    | link oldid ty outg s c cnt sti lti vlti =>
      obtain ⟨hl, hn, hid⟩ :=
        importlink_spec as ty outg idmap ⟨s, c, cnt⟩ ⟨sti, lti, vlti⟩ hinv
      have hinv2 : ∀ b ∈ liveAtoms
          (importlink as ty outg idmap ⟨s, c, cnt⟩ ⟨sti, lti, vlti⟩).1,
          b.id < (importlink as ty outg idmap ⟨s, c, cnt⟩
            ⟨sti, lti, vlti⟩).1.nextatomid := by
        rw [hl, hn]
        intro b hb
        rcases List.mem_append.1 hb with hb' | hb'
        · exact Nat.lt_succ_of_lt (hinv b hb')
        · rw [List.mem_singleton] at hb'
          subst hb'
          exact Nat.lt_succ_self as.nextatomid
      show liveAtoms (importlines rest
        (importlink as ty outg idmap ⟨s, c, cnt⟩ ⟨sti, lti, vlti⟩).1
        (idmap ++ [(oldid, (importlink as ty outg idmap ⟨s, c, cnt⟩
          ⟨sti, lti, vlti⟩).2.id)])) = _
      rw [ih _ _ hinv2, hl, hn, hid, List.append_assoc]
      rfl

/-- The characterization at the top level: the imported store's live atoms
are `importSpecFrom 1 []` of the processed lines. -/
theorem atomspaceimport_spec (hdr : ℕ) (lines : List SLine) :
    liveAtoms (atomspaceimport (hdr, lines))
      = importSpecFrom 1 [] (procLines lines) := by
  have h := importlines_spec lines atomspacecreate [] (by
    intro b hb
    simp [liveAtoms, atomspacecreate] at hb)
  simpa [atomspaceimport, liveAtoms, atomspacecreate] using h

/-- The fresh id assigned by `atomOfLine`. -/
theorem atomOfLine_id (n : ℕ) (m : List (ℕ × ℕ)) (ln : SLine) :
    (atomOfLine n m ln).id = n := by
  cases ln <;> rfl

/-- Every atom of `importSpecFrom start _ _` has id at least `start`. -/
theorem importSpecFrom_id_ge :
    ∀ (P : List SLine) (start : ℕ) (idmap : List (ℕ × ℕ)),
      ∀ a ∈ importSpecFrom start idmap P, start ≤ a.id := by
  intro P
  induction P with
  | nil =>
    intro start idmap a ha
    simp [importSpecFrom] at ha
  | cons ln rest ih =>
    intro start idmap a ha
    rcases List.mem_cons.1 ha with rfl | ha'
    · exact le_of_eq (atomOfLine_id start idmap ln).symm
    · have := ih (start + 1) _ a ha'
      omega

/-- Imported atoms carry strictly increasing ids. -/
theorem importSpecFrom_pairwise :
    ∀ (P : List SLine) (start : ℕ) (idmap : List (ℕ × ℕ)),
      (importSpecFrom start idmap P).Pairwise (fun a b => a.id < b.id) := by
  intro P
  induction P with
  | nil => intro start idmap; simp [importSpecFrom]
  | cons ln rest ih =>
    intro start idmap
    refine List.pairwise_cons.2 ⟨?_, ih _ _⟩
    intro b hb
    have := importSpecFrom_id_ge rest (start + 1) _ b hb
    rw [atomOfLine_id]
    omega

/-- Position `k` of the imported atoms is the `k`-th processed line's atom,
its link targets resolved through the id map of the lines *strictly before
position `k`*. -/
theorem importSpecFrom_getElem? :
    ∀ (P : List SLine) (start : ℕ) (idmap : List (ℕ × ℕ)) (k : ℕ),
      (importSpecFrom start idmap P)[k]?
        = (P[k]?).map (fun ln =>
            atomOfLine (start + k)
              (idmap ++ importmapOf start (P.take k)) ln) := by
  intro P
  induction P with
  | nil => intro start idmap k; simp [importSpecFrom]
  | cons ln rest ih =>
    intro start idmap k
    cases k with
    | zero =>
      show (atomOfLine start idmap ln :: _)[0]? = _
      simp only [List.getElem?_cons_zero, List.take_zero, importmapOf,
        List.append_nil, Nat.add_zero]
      rfl
    | succ k =>
      have hcons : importSpecFrom start idmap (ln :: rest)
          = atomOfLine start idmap ln
            :: importSpecFrom (start + 1)
                (idmap ++ [(oldidOf ln, start)]) rest := rfl
      rw [hcons, List.getElem?_cons_succ, ih (start + 1) _ k,
        List.getElem?_cons_succ, List.take_succ_cons]
      have h1 : start + 1 + k = start + (k + 1) := by omega
      have h2 : (idmap ++ [(oldidOf ln, start)])
          ++ importmapOf (start + 1) (rest.take k)
          = idmap ++ importmapOf start (ln :: rest.take k) := by
        rw [List.append_assoc]
        rfl
      rw [h1, h2]

/-- Resolving an old id that occurs at position `i` of a duplicate-free run
of creating lines yields the `i`-th fresh id. -/
theorem findbyoldid_importmapOf :
    ∀ (P : List SLine) (start i oid : ℕ),
      (P.map oldidOf).Nodup →
      (P.map oldidOf)[i]? = some oid →
      findbyoldid (importmapOf start P) oid = some (start + i) := by
  intro P
  induction P with
  | nil =>
    intro start i oid _ h
    simp at h
  | cons ln rest ih =>
    intro start i oid hnd h
    rw [List.map_cons] at h hnd
    obtain ⟨hnotin, hrest⟩ := List.nodup_cons.1 hnd
    cases i with
    | zero =>
      rw [List.getElem?_cons_zero] at h
      have heq : oldidOf ln = oid := Option.some.inj h
      show findbyoldid ((oldidOf ln, start) :: importmapOf (start + 1) rest)
        oid = some (start + 0)
      unfold findbyoldid
      rw [List.find?_cons_of_pos _ (by simp [heq])]
      simp
    | succ i =>
      rw [List.getElem?_cons_succ] at h
      have hmem : oid ∈ rest.map oldidOf := List.getElem?_mem h
      have hne : oldidOf ln ≠ oid := by
        intro he
        exact hnotin (he ▸ hmem)
      show findbyoldid ((oldidOf ln, start) :: importmapOf (start + 1) rest)
        oid = some (start + (i + 1))
      unfold findbyoldid
      rw [List.find?_cons_of_neg _ (by simp [hne])]
      have hr := ih (start + 1) i oid hrest h
      unfold findbyoldid at hr
      rw [show start + 1 + i = start + (i + 1) from by omega] at hr
      exact hr

/-- A backward reference resolves: when position `i` of the processed
lines (old ids duplicate-free) carries old id `oid` and `i < k`, then the
id map of the first `k` lines sends `oid` to the fresh id `i + 1`, and that
id dereferences in the imported store to the atom imported from line
`i`. -/
theorem import_backref (hdr : ℕ) (lines : List SLine) (k i oid : ℕ)
    (hdist : ((procLines lines).map oldidOf).Nodup)
    (hi : i < k)
    (hiline : ((procLines lines).map oldidOf)[i]? = some oid) :
    findbyoldid (importmapOf 1 ((procLines lines).take k)) oid
        = some (i + 1)
    ∧ ∃ b, (liveAtoms (atomspaceimport (hdr, lines)))[i]? = some b
        ∧ b.id = i + 1
        ∧ atomderef (atomspaceimport (hdr, lines)) (i + 1) = some b := by
  have hchar := atomspaceimport_spec hdr lines
  have hpi : ∃ lnI, (procLines lines)[i]? = some lnI ∧ oldidOf lnI = oid := by
    rw [List.getElem?_map] at hiline
    cases hp : (procLines lines)[i]? with
    | none => rw [hp] at hiline; cases hiline
    | some lnI =>
      rw [hp] at hiline
      exact ⟨lnI, rfl, Option.some.inj hiline⟩
  obtain ⟨lnI, hpI, holdI⟩ := hpi
  have hkb : (liveAtoms (atomspaceimport (hdr, lines)))[i]?
      = some (atomOfLine (1 + i)
          ([] ++ importmapOf 1 ((procLines lines).take i)) lnI) := by
    rw [hchar, importSpecFrom_getElem?, hpI]
    rfl
  have hres : findbyoldid (importmapOf 1 ((procLines lines).take k)) oid
      = some (i + 1) := by
    have hnd : (((procLines lines).take k).map oldidOf).Nodup := by
      rw [List.map_take]
      exact List.Nodup.sublist (List.take_sublist _ _) hdist
    have hat : (((procLines lines).take k).map oldidOf)[i]? = some oid := by
      rw [List.map_take, List.getElem?_take_of_lt hi]
      exact hiline
    have := findbyoldid_importmapOf ((procLines lines).take k) 1 i oid hnd hat
    rw [show 1 + i = i + 1 from by omega] at this
    exact this
  refine ⟨hres, _, hkb, ?_, ?_⟩
  · rw [atomOfLine_id]
    omega
  · have hbmem : atomOfLine (1 + i)
        ([] ++ importmapOf 1 ((procLines lines).take i)) lnI
        ∈ liveAtoms (atomspaceimport (hdr, lines)) :=
      List.getElem?_mem hkb
    have hpw : (liveAtoms (atomspaceimport (hdr, lines))).Pairwise
        (fun a b => a.id < b.id) := by
      rw [hchar]
      exact importSpecFrom_pairwise _ 1 []
    have hfind := find_id_of_mem _ hpw _ hbmem
    show (liveAtoms (atomspaceimport (hdr, lines))).find?
      (fun x => x.id == i + 1) = _
    rw [show i + 1 = (atomOfLine (1 + i)
      ([] ++ importmapOf 1 ((procLines lines).take i)) lnI).id from by
        rw [atomOfLine_id]; omega]
    exact hfind

/-- The C4 counterexample stream: a LINK line whose outgoing id `5` refers
to a NODE line that appears only *later*. -/
def c4lines : List SLine :=
  [SLine.link 10 InheritanceLink [5] (1/2) 0 0 0 0 0,
   SLine.node 5 ConceptNode "X" (1/2) 0 0 0 0 0,
   SLine.endmark]

/-- C4 — counterexample.  Importing a stream in which a LINK line precedes
the NODE line it references leaves the link's outgoing entry unresolved:
the id map is filled only as lines are read and there is no second pass, so
the forward reference becomes the nil id 0 (dereferencing to nothing) even
though the target atom (id 2 here) exists in the imported store. -/
theorem claim_C4_counterexample :
    (liveAtoms (atomspaceimport (2, c4lines))).map Atom.outgoing = [[0], []]
    ∧ atomderef (atomspaceimport (2, c4lines)) 0 = none
    ∧ (∃ b ∈ liveAtoms (atomspaceimport (2, c4lines)),
        b.name = some "X" ∧ b.id = 2) := by
  refine ⟨by decide, by decide, by decide⟩

/-- C4 — amended.  Outgoing ids are resolved through the id-translation
table as filled *so far*, so only backward references resolve: when the
`k`-th processed line is a LINK and one of its outgoing ids `oid` is the
old id of an earlier line (position `i < k`; old ids duplicate-free), the
imported link at position `k` carries `i + 1` — the id of the atom imported
from that earlier line — at that entry, and `i + 1` dereferences to that
atom.  Forward references are *not* supported (see the counterexample). -/
theorem claim_C4 (hdr : ℕ) (lines : List SLine) (k i oid : ℕ)
    (loid : ℕ) (lty : ℤ) (outg : List ℕ) (s c : ℚ) (cnt : ℕ)
    (sti lti vlti : ℤ)
    (hdist : ((procLines lines).map oldidOf).Nodup)
    (hk : (procLines lines)[k]?
      = some (SLine.link loid lty outg s c cnt sti lti vlti))
    (hoid : oid ∈ outg) (hi : i < k)
    (hiline : ((procLines lines).map oldidOf)[i]? = some oid) :
    ∃ a b,
      (liveAtoms (atomspaceimport (hdr, lines)))[k]? = some a
      ∧ a.outgoing = outg.map (fun o =>
          (findbyoldid (importmapOf 1 ((procLines lines).take k)) o).getD 0)
      ∧ findbyoldid (importmapOf 1 ((procLines lines).take k)) oid
          = some (i + 1)
      ∧ (liveAtoms (atomspaceimport (hdr, lines)))[i]? = some b
      ∧ b.id = i + 1
      ∧ atomderef (atomspaceimport (hdr, lines)) (i + 1) = some b := by
  have hchar := atomspaceimport_spec hdr lines
  have hka : (liveAtoms (atomspaceimport (hdr, lines)))[k]?
      = some (atomOfLine (1 + k)
          ([] ++ importmapOf 1 ((procLines lines).take k))
          (SLine.link loid lty outg s c cnt sti lti vlti)) := by
    rw [hchar, importSpecFrom_getElem?, hk]
    rfl
  obtain ⟨hres, b, hkb, hbid, hder⟩ :=
    import_backref hdr lines k i oid hdist hi hiline
  exact ⟨_, b, hka, rfl, hres, hkb, hbid, hder⟩

/-- The C4 witness stream: the NODE line (old id 5) comes first, so the
LINK line's backward reference resolves. -/
def c4wlines : List SLine :=
  [SLine.node 5 ConceptNode "X" (1/2) 0 0 0 0 0,
   SLine.link 10 InheritanceLink [5] (1/2) 0 0 0 0 0,
   SLine.endmark]

/-- Witness for the amended C4: in the backward-reference stream the link
at position 1 carries the resolved id 1 of the node imported from the
earlier line. -/
theorem claim_C4_witness :
    ∃ a b,
      (liveAtoms (atomspaceimport (2, c4wlines)))[1]? = some a
      ∧ a.outgoing = [5].map (fun o =>
          (findbyoldid (importmapOf 1 ((procLines c4wlines).take 1)) o).getD 0)
      ∧ findbyoldid (importmapOf 1 ((procLines c4wlines).take 1)) 5
          = some (0 + 1)
      ∧ (liveAtoms (atomspaceimport (2, c4wlines)))[0]? = some b
      ∧ b.id = 0 + 1
      ∧ atomderef (atomspaceimport (2, c4wlines)) (0 + 1) = some b :=
  claim_C4 2 c4wlines 1 0 5 10 InheritanceLink [5] (1/2) 0 0 0 0 0
    (by decide) (by decide) (by decide) (by decide) (by decide)

/-! ### C5: the export/import round trip

The wire between `atomspaceexport` and `atomspaceimport` is text: export
prints each record with `snprint` and import re-reads it with
`tokenize(line, fields, 32)`.  That composition is modelled here: a
written line is the list of tokens `tokenize` recovers from it.  The
printed name bytes are modelled faithfully as their whitespace-split
words (`nameWords`), so a name containing whitespace contributes several
tokens — or none — and shifts every later field; the `fields[32]` array
caps a line at 32 tokens, which drops any LINK line with more than 22
outgoing ids.  Numeric tokens are modelled as exact tokens (`Tok.n`,
`Tok.i`, `Tok.f`): their decimal rendering contains no whitespace, so
they always form one token, and `%f`'s six-decimal rounding is abstracted
as exact.  Plan 9 `tokenize` additionally processes single-quote quoting;
export never writes quotes, and the round-trip theorems require
quote-free names, so splitting is modelled on whitespace alone. -/

/-- A wire token: a text word (a keyword, or one whitespace-free chunk of
a printed name), or a numeral printed by `%uld`/`%ld`, `%d`, or `%f` —
numerals carried exactly (see the section header). -/
inductive Tok where
  | w (s : String)
  | n (v : ℕ)
  | i (v : ℤ)
  | f (v : ℚ)
  deriving DecidableEq, Repr

/-- `fields[i]` of the C parse: the `i`-th token (reads beyond the parsed
count, which the C code's field-count guards prevent, yield an inert
default). -/
def tokAt : List Tok → ℕ → Tok
  | [], _ => Tok.w ""
  | t :: _, 0 => t
  | _ :: rest, n + 1 => tokAt rest n

/-- `fields[l1.length + k]` reads past a prefix. -/
theorem tokAt_append (l1 l2 : List Tok) (k : ℕ) :
    tokAt (l1 ++ l2) (l1.length + k) = tokAt l2 k := by
  induction l1 with
  | nil =>
    rw [List.nil_append]
    show tokAt l2 (0 + k) = tokAt l2 k
    rw [Nat.zero_add]
  | cons a l1 ih =>
    rw [List.cons_append]
    have hlen : (a :: l1).length + k = (l1.length + k) + 1 := by
      rw [List.length_cons]
      omega
    rw [hlen]
    show tokAt (l1 ++ l2) (l1.length + k) = tokAt l2 k
    exact ih

/-- An atom pointer at process level. -/
structure HashPtr where
  space : ℕ
  slot : ℕ
  deriving DecidableEq, Repr

/-- The process state: `nextatomid` and `globalhash` are the static
variables of atomspace.c; `spaces` the living `AtomSpace` instances. -/
structure CogProc where
  nextatomid : ℕ
  globalhash : List (ℕ × HashPtr)
  spaces : List (List (Option Atom))
  deriving DecidableEq, Repr

/-- A fresh process (`nextatomid = 1`; the hash is allocated empty by the
first `atomspacecreate`). -/
def procinit : CogProc :=
  { nextatomid := 1, globalhash := [], spaces := [] }

/-- `atomspacecreate` at process level: a new empty space. -/
def atomspacecreateP (p : CogProc) : CogProc × ℕ :=
  ({ p with spaces := p.spaces ++ [[]] }, p.spaces.length)

/-- `hashinsert`: the C code prepends the entry to its bucket's chain. -/
def hashinsert (p : CogProc) (aid : ℕ) (ptr : HashPtr) : CogProc :=
  { p with globalhash := (aid, ptr) :: p.globalhash }

/-- `hashfind`: the most recently inserted entry for the id, whichever
space owns the atom. -/
def hashfind (p : CogProc) (aid : ℕ) : Option HashPtr :=
  (p.globalhash.find? (fun e => e.1 == aid)).map (fun e => e.2)

/-- Pointer dereference at process level. -/
def procderef (p : CogProc) (ptr : HashPtr) : Option Atom :=
  match p.spaces[ptr.space]? with
  | none => none
  | some sp =>
    match sp[ptr.slot]? with
    | none => none
    | some o => o

/-- `atomcreate` at process level (`atomalloc` plus field setup): assign
the process-unique id, append the atom to the target space, and insert it
into the *process-wide* hash. -/
def atomcreateP (p : CogProc) (sidx : ℕ) (ty : ℤ) (name : Option String) :
    CogProc × Atom :=
  let a : Atom :=
    { id := p.nextatomid, type := ty, name := name, outgoing := [],
      tv := ⟨1/2, 0, 0⟩, av := ⟨0, 0, 0⟩ }
  let sp := p.spaces.getD sidx []
  let p1 : CogProc :=
    { p with
      nextatomid := p.nextatomid + 1,
      spaces := p.spaces.set sidx (sp ++ [some a]) }
  (hashinsert p1 a.id ⟨sidx, sp.length⟩, a)

/-- `atomfind` (atomspace.c lines 292-315): consult the process-wide hash
first — returning whatever atom it holds, owned by *any* space — and only
on a miss fall back to a linear scan of the queried space. -/
def atomfindP (p : CogProc) (sidx : ℕ) (aid : ℕ) : Option Atom :=
  match hashfind p aid with
  | some ptr => procderef p ptr
  | none =>
    ((p.spaces.getD sidx []).filterMap (fun o => o)).find?
      (fun a => a.id == aid)

/-- The C2 failing scenario: two spaces in one process; the only atom
(id 1) is created in space 0. -/
def c2proc : CogProc :=
  (atomcreateP (atomspacecreateP (atomspacecreateP procinit).1).1 0
    ConceptNode (some "A")).1

/-- C2 — the code at the failing input.  Space 1 owns no atoms, yet
`atomfind(space 1, 1)` returns the atom that space 0 owns, because the
lookup goes through the process-wide `globalhash` shared by all
`AtomSpace` instances.  The claim (one id index per store; cross-store
lookups return nil) states the spec's intended behaviour, which the spec
itself says the original code violates — a defect of the code, not of the
claim. -/
theorem claim_C2_eval :
    (c2proc.spaces.getD 1 []).length = 0
    ∧ atomfindP c2proc 1 1
        = some { id := 1, type := ConceptNode, name := some "A",
                 outgoing := [], tv := ⟨1/2, 0, 0⟩, av := ⟨0, 0, 0⟩ }
    ∧ atomfindP c2proc 1 1 ≠ none := by
  refine ⟨by decide, by decide, by decide⟩

end Cogplan9
